import Mathlib

/-!
Verification of the mesh-segmentation program (`main.py`) against its
natural-language specification.  The Python code is shallowly embedded:
numpy float arithmetic is modelled over `ℚ`, numpy arrays as Lean lists or
functions, and in-place mutation as explicit state passing.
-/

namespace MeshSeg

/-- First index of the minimum of a list of rationals (numpy `argmin`
semantics: ties broken by the lowest index; `0` for the empty list). -/
def argminIdx : List ℚ → ℕ
  | [] => 0
  | x :: xs =>
    (xs.foldl
      (fun acc v =>
        if v < acc.2.2 then (acc.2.1, acc.2.1 + 1, v)
        else (acc.1, acc.2.1 + 1, acc.2.2))
      ((0 : ℕ), (1 : ℕ), x)).1

/-- Maximum of a list of rationals (`np.max`; `0` for the empty list,
which numpy would reject). -/
def listMaxQ : List ℚ → ℚ
  | [] => 0
  | x :: xs => xs.foldl max x

/-- `Model.compute_dis`, line 84: `is_convex = np.dot(f0.norm, f1.center -
f0.center) < 1e-12`.  The argument is the value of that dot product. -/
def isConvex (dotNC : ℚ) : Bool := dotNC < 1 / 1000000000000

/-- `Model.compute_dis`, line 85: `eta = 0.2 if is_convex else 1.0`. -/
def etaOf (dotNC : ℚ) : ℚ := if isConvex dotNC then 1 / 5 else 1

/-- `Model.compute_dis`, line 86: `ang_dis = eta * (1 - np.dot(f0.norm,
f1.norm))`.  `dotNC` is `n0·(c1−c0)`, `ndot` is `n0·n1`. -/
def angDisOf (dotNC ndot : ℚ) : ℚ := etaOf dotNC * (1 - ndot)

/-- C5 (counterexample): the claim asserts that a pair with
`n0·(c1−c0) = −1e−6` is classified concave with `eta = 1.0` and that
`+1e−6` gives convex with `eta = 0.2`.  The code (line 84) classifies
`−1e−6 < 1e−12` as convex, so the etas are exactly the other way round. -/
theorem computeDis_eta_claim_false :
    etaOf (-(1 / 1000000)) = 1 / 5 ∧ etaOf (1 / 1000000) = 1 ∧
      ¬ etaOf (-(1 / 1000000)) = 1 ∧ ¬ etaOf (1 / 1000000) = 1 / 5 := by
  refine ⟨?_, ?_, ?_, ?_⟩ <;> simp [etaOf, isConvex] <;> norm_num

/-- C5 (amended): a pair with `n0·(c1−c0) = −1e−6` is classified convex
and uses `eta = 0.2`, the perturbed pair with `+1e−6` is classified
concave and uses `eta = 1.0`, and for any common value of `n0·n1` the two
resulting `ang_dis` values differ by a factor of 5. -/
theorem computeDis_eta_convexity :
    etaOf (-(1 / 1000000)) = 1 / 5 ∧ etaOf (1 / 1000000) = 1 ∧
      ∀ ndot : ℚ, angDisOf (1 / 1000000) ndot = 5 * angDisOf (-(1 / 1000000)) ndot := by
  refine ⟨?_, ?_, ?_⟩
  · simp [etaOf, isConvex]; norm_num
  · simp [etaOf, isConvex]; norm_num
  · intro ndot
    simp only [angDisOf, etaOf, isConvex]
    norm_num
    ring

/-! ## C2 — the recursion gate of `Segment.seg` (lines 439–444)

`reps_f_dis = self.f_dis[self.reps][:, self.reps]` and
`local_max_patch_dis = np.max(reps_f_dis)`; then
`if self.level > 0 or local_max_patch_dis / self.global_max_dis < 0.1: return`.
The recursive construction of child segments (lines 446–462) runs exactly
when that early return is not taken. -/

/-- `np.max(self.f_dis[self.reps][:, self.reps])` — the maximum pairwise
distance among the representatives. -/
def localMaxPatchDis (fdis : ℕ → ℕ → ℚ) (reps : List ℕ) : ℚ :=
  listMaxQ (reps.flatMap fun i => reps.map fun j => fdis i j)

/-- The early-return test of `seg` (line 442):
`self.level > 0 or local_max_patch_dis / self.global_max_dis < 0.1`. -/
def segReturnsEarly (level : ℕ) (localMax globalMax : ℚ) : Bool :=
  decide (0 < level) || decide (localMax / globalMax < 1 / 10)

/-- `seg` constructs and recurses into child segments iff the early return
is not taken. -/
def segRecurses (level : ℕ) (fdis : ℕ → ℕ → ℚ) (reps : List ℕ)
    (globalMax : ℚ) : Bool :=
  !segReturnsEarly level (localMaxPatchDis fdis reps) globalMax

/-- C2 (counterexample): the claim says children are built only if
`level > 0` and the distance ratio is at least 0.1.  The code recurses on
a segment at `level = 0` whose ratio is `1 ≥ 0.1` — a state in which
`level > 0` is false — so the claim's gate is the negation of the coded
one. -/
theorem segRecurses_claim_false :
    segRecurses 0 (fun _ _ => 1) [0, 1] 1 = true ∧ ¬ (0 : ℕ) > 0 := by
  constructor
  · have h : localMaxPatchDis (fun _ _ => 1) [0, 1] = 1 := by
      simp [localMaxPatchDis, listMaxQ]
    simp [segRecurses, segReturnsEarly, h]
    norm_num
  · decide

/-- C2 (amended): `seg` constructs and recurses into child segments iff
`level = 0` **and** the maximum pairwise distance among the final
representatives divided by the global max-minus-min of `D` is at least
0.1 — i.e. the code returns early when `level > 0` *or* the ratio is
below 0.1, so recursion (as driven from level 2) never fires. -/
theorem segRecurses_iff :
    ∀ (level : ℕ) (fdis : ℕ → ℕ → ℚ) (reps : List ℕ) (globalMax : ℚ),
      segRecurses level fdis reps globalMax = true ↔
        level = 0 ∧ ¬ localMaxPatchDis fdis reps / globalMax < 1 / 10 := by
  intro level fdis reps globalMax
  simp only [segRecurses, segReturnsEarly, Bool.not_eq_true', Bool.or_eq_false_iff,
    decide_eq_false_iff_not]
  constructor
  · rintro ⟨h1, h2⟩
    exact ⟨by omega, h2⟩
  · rintro ⟨h1, h2⟩
    exact ⟨by omega, h2⟩

/-! ## C9 — `Segment.__init__` with an empty `fids` list (lines 267–274)

`self.fids = fids if fids else list(range(len(model.fs)))` — Python
truthiness makes the empty list behave exactly like `None`. -/

/-- The face-id list stored by `Segment.__init__` (line 270).  `none`
models passing no `fids` argument. -/
def segmentFids (numFaces : ℕ) (fids : Option (List ℕ)) : List ℕ :=
  match fids with
  | none => List.range numFaces
  | some l => if l.isEmpty then List.range numFaces else l

/-- `self.f_dis = model.f_dis[self.fids][:, self.fids]` (line 274): the
local distance submatrix, indexed by positions into `fids`. -/
def localSubDis (fdis : ℕ → ℕ → ℚ) (fids : List ℕ) : ℕ → ℕ → ℚ :=
  fun i j => fdis (fids.getD i 0) (fids.getD j 0)

/-- C9: constructing a `Segment` with an explicitly empty `fids` list
yields the same face set as passing no `fids` at all, namely every face
of the model, and hence the same (whole-mesh) local distance submatrix. -/
theorem segmentFids_empty_eq_all :
    ∀ (numFaces : ℕ) (fdis : ℕ → ℕ → ℚ),
      segmentFids numFaces (some []) = segmentFids numFaces none ∧
      segmentFids numFaces (some []) = List.range numFaces ∧
      localSubDis fdis (segmentFids numFaces (some [])) =
        localSubDis fdis (List.range numFaces) := by
  intro numFaces fdis
  refine ⟨rfl, rfl, rfl⟩

/-! ## C1 — `Segment.seg.compute_prob` (lines 336–344)

`compute_prob` writes, column by column, into the `num × n` matrix `prob`:
for a face that is one of `reps` it sets the single entry at the slot
`reps.index(fid)` to 1 (leaving the other entries of the column as they
were), otherwise it sets the whole column to
`1 / f_dis[fid][reps] / sum_prob` where
`sum_prob = Σ_{u ∈ uniques} 1 / f_dis[fid][reps[u]]`. -/

/-- `np.sort(np.unique(reps, return_index=True)[1])` (lines 315 and 430):
the ascending list of positions at which each distinct value of `reps`
occurs first. -/
def uniquesOf (reps : List ℕ) : List ℕ :=
  (List.range reps.length).filter fun i => reps.indexOf (reps.getD i 0) = i

/-- One column of `compute_prob` (lines 337–344): the new value of
`prob[·, fid]` given the previous column `prob0`. -/
def computeProbCol (fdis : ℕ → ℕ → ℚ) (reps uniques : List ℕ)
    (prob0 : ℕ → ℚ) (fid : ℕ) : ℕ → ℚ :=
  if fid ∈ reps then
    fun k => if k = reps.indexOf fid then 1 else prob0 k
  else
    let s : ℚ := (uniques.map fun u => 1 / fdis fid (reps.getD u 0)).sum
    fun k => if k < reps.length then 1 / fdis fid (reps.getD k 0) / s else prob0 k

/-- `compute_prob` over the whole matrix: every local face id below `n`
gets its column rewritten; the columns are independent. -/
def computeProb (n : ℕ) (fdis : ℕ → ℕ → ℚ) (reps uniques : List ℕ)
    (prob0 : ℕ → ℕ → ℚ) : ℕ → ℕ → ℚ :=
  fun k fid =>
    if fid < n then computeProbCol fdis reps uniques (fun j => prob0 j fid) fid k
    else prob0 k fid

/-- Distances of the running example: `0` on the diagonal and `1` off it
(the distance matrix of a regular simplex). -/
def exDis : ℕ → ℕ → ℚ := fun i j => if i = j then 0 else 1

/-- Sum of a column of `prob` over the seed slots, as the code's
`sum over k of prob[k, f]`. -/
def probColSum (num : ℕ) (prob : ℕ → ℕ → ℚ) (fid : ℕ) : ℚ :=
  ((List.range num).map fun k => prob k fid).sum

theorem list_sum_div (l : List ℚ) (s : ℚ) :
    (l.map fun x => x / s).sum = l.sum / s := by
  induction l with
  | nil => simp
  | cons x xs ih => simp [ih, add_div]

theorem uniquesOf_of_nodup {reps : List ℕ} (h : reps.Nodup) :
    uniquesOf reps = List.range reps.length := by
  unfold uniquesOf
  rw [List.filter_eq_self]
  intro i hi
  rw [List.mem_range] at hi
  have hg : reps.getD i 0 = reps[i] := List.getD_eq_getElem reps 0 hi
  rw [hg]
  simp [List.indexOf_getElem h i hi]

theorem range_map_indicator_sum (n j : ℕ) (hj : j < n) :
    (((List.range n).map fun k => if k = j then (1 : ℚ) else 0)).sum = 1 := by
  induction n with
  | zero => omega
  | succ m ih =>
    rw [List.range_succ, List.map_append, List.sum_append]
    rcases Nat.lt_or_ge j m with hlt | hge
    · rw [ih hlt]
      simp
      omega
    · have hjm : j = m := by omega
      subst hjm
      simp
      have : ∀ k ∈ List.range j, ((if k = j then (1 : ℚ) else 0)) = 0 := by
        intro k hk
        rw [List.mem_range] at hk
        simp
        omega
      calc ((List.range j).map fun k => if k = j then (1 : ℚ) else 0).sum
          = ((List.range j).map fun _ => (0 : ℚ)).sum := by
            rw [List.map_congr_left this]
        _ = 0 := by simp

/-- C1 (counterexample): at a `compute_prob` state in which the two
representatives coincide (`reps = [0, 0]`, so `uniques = [0]`), the column
of the non-representative face 1 sums to 2, not 1: the numerator runs over
all `num` slots while `sum_prob` runs over `uniques` only. -/
theorem computeProb_sum_claim_false :
    probColSum 2 (computeProb 3 exDis [0, 0] (uniquesOf [0, 0]) fun _ _ => 0) 1 = 2 ∧
      ¬ probColSum 2 (computeProb 3 exDis [0, 0] (uniquesOf [0, 0]) fun _ _ => 0) 1 = 1 := by
  have huniq : uniquesOf [0, 0] = [0] := by decide
  have h : probColSum 2 (computeProb 3 exDis [0, 0] (uniquesOf [0, 0]) fun _ _ => 0) 1 = 2 := by
    rw [huniq]
    simp [probColSum, computeProb, computeProbCol, exDis, List.range_succ]
    norm_num
  refine ⟨h, by rw [h]; norm_num⟩

/-- C1 (amended): at the end of the **first** `compute_prob` call of
`seg()` (the `prob` matrix starts out all zero), provided the
representatives are pairwise distinct and the face's distances to all
representatives are positive, the probabilities assigned to every face
`f` of the segment over the `num` seed slots sum to exactly 1 — including
when `f` is itself one of the representatives.  (With duplicated
representatives, or for a representative face in a later round whose
column holds stale nonzero entries, the sum can differ from 1.) -/
theorem computeProb_first_call_sum_one
    (n : ℕ) (fdis : ℕ → ℕ → ℚ) (reps : List ℕ) (fid : ℕ)
    (hfid : fid < n) (hne : reps ≠ []) (hnd : reps.Nodup)
    (hpos : ∀ u, u < reps.length → 0 < fdis fid (reps.getD u 0)) :
    probColSum reps.length
      (computeProb n fdis reps (uniquesOf reps) fun _ _ => 0) fid = 1 := by
  unfold probColSum computeProb
  simp only [hfid, if_pos]
  unfold computeProbCol
  by_cases hmem : fid ∈ reps
  · simp only [hmem, if_pos]
    have hidx : reps.indexOf fid < reps.length := List.indexOf_lt_length.mpr hmem
    simpa using range_map_indicator_sum reps.length (reps.indexOf fid) hidx
  · simp only [hmem, if_neg, if_false]
    rw [uniquesOf_of_nodup hnd]
    set t : ℕ → ℚ := fun u => 1 / fdis fid (reps.getD u 0) with ht
    have hmap : ((List.range reps.length).map fun k =>
        if k < reps.length then 1 / fdis fid (reps.getD k 0) / ((List.range reps.length).map t).sum
        else 0) = (List.range reps.length).map fun k => t k / ((List.range reps.length).map t).sum := by
      apply List.map_congr_left
      intro k hk
      rw [List.mem_range] at hk
      simp [hk, ht]
    rw [hmap]
    have hmm : (List.range reps.length).map
          (fun k => t k / ((List.range reps.length).map t).sum) =
        ((List.range reps.length).map t).map
          (fun x => x / ((List.range reps.length).map t).sum) := by
      rw [List.map_map]
      exact rfl
    rw [hmm, list_sum_div]
    have hspos : 0 < ((List.range reps.length).map t).sum := by
      apply List.sum_pos
      · intro x hx
        rw [List.mem_map] at hx
        obtain ⟨u, hu, hx⟩ := hx
        rw [List.mem_range] at hu
        rw [← hx, ht]
        simp only [one_div, inv_pos]
        exact hpos u hu
      · simp [List.map_eq_nil_iff, List.range_eq_nil]
        intro hlen
        exact hne hlen
    exact div_self (ne_of_gt hspos)

/-- C1 (witness for the amended theorem): a concrete 3-face segment with
distinct representatives `[0, 1]`; face 2 gets probability sum 1. -/
theorem computeProb_first_call_sum_one_witness :
    (2 : ℕ) < 3 ∧ ([0, 1] : List ℕ) ≠ [] ∧ ([0, 1] : List ℕ).Nodup ∧
      probColSum 2 (computeProb 3 exDis [0, 1] (uniquesOf [0, 1]) fun _ _ => 0) 2 = 1 := by
  refine ⟨by decide, by decide, by decide, ?_⟩
  have h := computeProb_first_call_sum_one 3 exDis [0, 1] 2 (by decide) (by decide) (by decide) ?_
  · simpa using h
  · intro u hu
    have hu2 : u = 0 ∨ u = 1 := by
      simp at hu
      omega
    rcases hu2 with h | h <;> subst h <;> norm_num [exDis]

/-! ## C6 — seed initialization in `Segment.__init__` (lines 280–319)

`k_way_reps` picks the row-sum argmin as the first seed, then runs 20
farthest-point rounds, and returns the first `num = 2` seeds;
`self.uniques` is computed from those seeds; and only afterwards, because
`num == 2`, are `reps[0], reps[1]` overwritten with the sorted pair of
indices of the maximal entry of the local distance matrix. -/

/-- Minimum of a nonempty list of rationals (`np.min`; `0` for `[]`). -/
def listMinQ : List ℚ → ℚ
  | [] => 0
  | x :: xs => xs.foldl min x

/-- `np.sum(self.f_dis, axis=1)` restricted to the `n × n` block. -/
def rowSums (n : ℕ) (fdis : ℕ → ℕ → ℚ) : List ℚ :=
  (List.range n).map fun i => ((List.range n).map fun j => fdis i j).sum

/-- `np.argmin(np.sum(self.f_dis, axis=1))` (line 291): the first seed. -/
def initialRep (n : ℕ) (fdis : ℕ → ℕ → ℚ) : ℕ :=
  argminIdx (rowSums n fdis)

/-- One farthest-point round (lines 293–298): scan `j` over the faces,
keeping the first `j` whose distance to the nearest current seed strictly
exceeds the best so far (starting from `rep, max_dis = 0, 0.0`). -/
def farthestScan (n : ℕ) (fdis : ℕ → ℕ → ℚ) (reps : List ℕ) : ℕ × ℚ :=
  (List.range n).foldl
    (fun acc j =>
      let mind := listMinQ (reps.map fun r => fdis j r)
      if mind > acc.2 then (j, mind) else acc)
    (0, 0)

/-- The 20 farthest-point rounds of `k_way_reps` (line 292), each
appending its pick to `reps` (the recorded gaps `G` are unused when
`num = 2`). -/
def kWayRepsAux (n : ℕ) (fdis : ℕ → ℕ → ℚ) : ℕ → List ℕ → List ℕ
  | 0, reps => reps
  | i + 1, reps => kWayRepsAux n fdis i (reps ++ [(farthestScan n fdis reps).1])

/-- `k_way_reps()` with the hard-coded `num = 2` (lines 304–306):
`reps[:2]`. -/
def initSeeds (n : ℕ) (fdis : ℕ → ℕ → ℚ) : List ℕ :=
  (kWayRepsAux n fdis 20 [initialRep n fdis]).take 2

/-- The row-major enumeration of the index pairs of the flattened `n × n`
matrix. -/
def pairList (n : ℕ) : List (ℕ × ℕ) :=
  (List.range n).flatMap fun i => (List.range n).map fun j => (i, j)

/-- `np.unravel_index(self.f_dis.argmax(), self.f_dis.shape)` (lines
280–282): the row-major position of the first maximal entry. -/
def argmax2 (n : ℕ) (fdis : ℕ → ℕ → ℚ) : ℕ × ℕ :=
  match pairList n with
  | [] => (0, 0)
  | p :: ps =>
    ps.foldl (fun best q => if fdis q.1 q.2 > fdis best.1 best.2 then q else best) p

/-- Lines 317–319: `rep0, rep1 = sorted(local_max_dis_fids)` followed by
`self.reps[0], self.reps[1] = rep0, rep1`. -/
def finalReps (n : ℕ) (fdis : ℕ → ℕ → ℚ) : List ℕ :=
  let p := argmax2 n fdis
  ((initSeeds n fdis).set 0 (min p.1 p.2)).set 1 (max p.1 p.2)

theorem uniquesOf_pair (a b : ℕ) :
    uniquesOf [a, b] = if b = a then [0] else [0, 1] := by
  have h0 : List.indexOf a [a, b] = 0 := List.indexOf_cons_self a [b]
  have hlen : ([a, b] : List ℕ).length = 2 := rfl
  unfold uniquesOf
  rw [hlen]
  by_cases h : b = a
  · subst h
    simp [List.range_succ, List.filter, h0, List.getD]
  · have h1 : List.indexOf b [a, b] = 1 := by
      rw [List.indexOf_cons_ne [b] (fun e => h e.symm), List.indexOf_cons_self]
    simp [List.range_succ, List.filter, h0, h1, List.getD, h]

theorem kWayRepsAux_take (n : ℕ) (fdis : ℕ → ℕ → ℚ) :
    ∀ (i : ℕ) (reps : List ℕ) (k : ℕ), k ≤ reps.length →
      (kWayRepsAux n fdis i reps).take k = reps.take k := by
  intro i
  induction i with
  | zero => intro reps k _; rfl
  | succ m ih =>
    intro reps k hk
    show (kWayRepsAux n fdis m (reps ++ [(farthestScan n fdis reps).1])).take k = reps.take k
    rw [ih (reps ++ [(farthestScan n fdis reps).1]) k (by simp; omega)]
    exact List.take_append_of_le_length hk

theorem initSeeds_eq (n : ℕ) (fdis : ℕ → ℕ → ℚ) :
    initSeeds n fdis =
      [initialRep n fdis, (farthestScan n fdis [initialRep n fdis]).1] := by
  unfold initSeeds
  show (kWayRepsAux n fdis 19 ([initialRep n fdis] ++
      [(farthestScan n fdis [initialRep n fdis]).1])).take 2 = _
  rw [kWayRepsAux_take n fdis 19 _ 2 (by simp)]
  rfl

theorem argminFold_const (xs : List ℚ) (c : ℚ) (b m : ℕ) (h : ∀ v ∈ xs, v = c) :
    (xs.foldl
      (fun acc v =>
        if v < acc.2.2 then (acc.2.1, acc.2.1 + 1, v)
        else (acc.1, acc.2.1 + 1, acc.2.2))
      (b, m, c)).1 = b := by
  induction xs generalizing b m with
  | nil => rfl
  | cons v vs ih =>
    have hv : v = c := h v (List.mem_cons_self _ _)
    simp only [List.foldl_cons, hv, lt_self_iff_false, if_false]
    exact ih b (m + 1) fun x hx => h x (List.mem_cons_of_mem v hx)

theorem argminIdx_const (l : List ℚ) (c : ℚ) (h : ∀ v ∈ l, v = c) :
    argminIdx l = 0 := by
  cases l with
  | nil => rfl
  | cons x xs =>
    have hx : x = c := h x (List.mem_cons_self _ _)
    unfold argminIdx
    rw [hx]
    exact argminFold_const xs c 0 1 fun v hv => h v (List.mem_cons_of_mem x hv)

theorem farthestFold_keep (f : ℕ → ℚ) (l : List ℕ) (acc : ℕ × ℚ)
    (h : ∀ j ∈ l, ¬ f j > acc.2) :
    l.foldl (fun a j => if f j > a.2 then (j, f j) else a) acc = acc := by
  induction l with
  | nil => rfl
  | cons x xs ih =>
    rw [List.foldl_cons, if_neg (h x (List.mem_cons_self _ _))]
    exact ih fun j hj => h j (List.mem_cons_of_mem x hj)

theorem farthestFold_ge (f : ℕ → ℚ) (l : List ℕ) (acc : ℕ × ℚ) :
    acc.2 ≤ (l.foldl (fun a j => if f j > a.2 then (j, f j) else a) acc).2 ∧
      ∀ j ∈ l, f j ≤ (l.foldl (fun a j => if f j > a.2 then (j, f j) else a) acc).2 := by
  induction l generalizing acc with
  | nil => exact ⟨le_refl _, by simp⟩
  | cons x xs ih =>
    simp only [List.foldl_cons]
    set acc1 : ℕ × ℚ := if f x > acc.2 then (x, f x) else acc with hacc1
    have h1 : acc.2 ≤ acc1.2 ∧ f x ≤ acc1.2 := by
      rw [hacc1]
      by_cases hgt : f x > acc.2
      · simp [hgt]
        exact le_of_lt hgt
      · simp [hgt]
        exact le_of_not_lt hgt
    obtain ⟨ihl, ihr⟩ := ih acc1
    refine ⟨le_trans h1.1 ihl, ?_⟩
    intro j hj
    rcases List.mem_cons.mp hj with hj | hj
    · subst hj; exact le_trans h1.2 ihl
    · exact ihr j hj

theorem farthestFold_sound (f : ℕ → ℚ) (l : List ℕ) (acc : ℕ × ℚ)
    (h : acc.2 = 0 ∨ acc.2 = f acc.1) :
    (l.foldl (fun a j => if f j > a.2 then (j, f j) else a) acc).2 = 0 ∨
      (l.foldl (fun a j => if f j > a.2 then (j, f j) else a) acc).2 =
        f (l.foldl (fun a j => if f j > a.2 then (j, f j) else a) acc).1 := by
  induction l generalizing acc with
  | nil => exact h
  | cons x xs ih =>
    simp only [List.foldl_cons]
    apply ih
    by_cases hgt : f x > acc.2
    · simp [hgt]
    · simp [hgt]
      exact h

theorem bestFold_ge (val : ℕ × ℕ → ℚ) (ps : List (ℕ × ℕ)) (p : ℕ × ℕ) :
    ∀ q ∈ p :: ps,
      val q ≤ val (ps.foldl (fun b q => if val q > val b then q else b) p) := by
  induction ps generalizing p with
  | nil =>
    intro q hq
    rcases List.mem_cons.mp hq with hq | hq
    · subst hq; exact le_refl _
    · cases hq
  | cons x xs ih =>
    intro q hq
    simp only [List.foldl_cons]
    set p1 : ℕ × ℕ := if val x > val p then x else p with hp1
    have hgep : val p ≤ val p1 ∧ val x ≤ val p1 := by
      rw [hp1]
      by_cases hgt : val x > val p
      · simp [hgt]; exact le_of_lt hgt
      · simp [hgt]; exact le_of_not_lt hgt
    rcases List.mem_cons.mp hq with hq | hq
    · subst hq
      exact le_trans hgep.1 (ih p1 p1 (List.mem_cons_self _ _))
    · rcases List.mem_cons.mp hq with hq | hq
      · subst hq
        exact le_trans hgep.2 (ih p1 p1 (List.mem_cons_self _ _))
      · exact ih p1 q (List.mem_cons_of_mem p1 hq)

theorem bestFold_keep (val : ℕ × ℕ → ℚ) (ps : List (ℕ × ℕ)) (p : ℕ × ℕ)
    (h : ∀ q ∈ ps, ¬ val q > val p) :
    ps.foldl (fun b q => if val q > val b then q else b) p = p := by
  induction ps with
  | nil => rfl
  | cons x xs ih =>
    rw [List.foldl_cons, if_neg (h x (List.mem_cons_self _ _))]
    exact ih fun q hq => h q (List.mem_cons_of_mem x hq)

theorem pairList_mem (n : ℕ) (i j : ℕ) :
    (i, j) ∈ pairList n ↔ i < n ∧ j < n := by
  simp [pairList, List.mem_flatMap, List.mem_map, List.mem_range]

theorem pairList_cons (m : ℕ) :
    ∃ ps : List (ℕ × ℕ), pairList (m + 1) = (0, 0) :: ps := by
  unfold pairList
  rw [List.range_succ_eq_map]
  simp only [List.flatMap_cons, List.map_cons, List.cons_append]
  exact ⟨_, rfl⟩

theorem farthestScan_single (n : ℕ) (fdis : ℕ → ℕ → ℚ) (r0 : ℕ) :
    farthestScan n fdis [r0] =
      (List.range n).foldl
        (fun a j => if fdis j r0 > a.2 then (j, fdis j r0) else a) (0, 0) := rfl

theorem exDis_symm : ∀ i j, exDis i j = exDis j i := by
  intro i j
  unfold exDis
  by_cases h : i = j
  · subst h; rfl
  · rw [if_neg h, if_neg fun e => h e.symm]

theorem exDis_nonneg : ∀ i j, 0 ≤ exDis i j := by
  intro i j
  unfold exDis
  by_cases h : i = j <;> simp [h]

theorem exDis_diag : ∀ i, exDis i i = 0 := by
  intro i; simp [exDis]

theorem exDis_triangle : ∀ i j k, exDis i k ≤ exDis i j + exDis j k := by
  intro i j k
  by_cases hik : i = k
  · subst hik
    rw [exDis_diag]
    exact add_nonneg (exDis_nonneg i j) (exDis_nonneg j i)
  · by_cases hij : i = j
    · subst hij
      rw [exDis_diag, show exDis i k = 1 from if_neg hik]
      norm_num
    · have h1 : exDis i k = 1 := if_neg hik
      have h2 : exDis i j = 1 := if_neg hij
      rw [h1, h2]
      have := exDis_nonneg j k
      linarith

/-- C6: for every `Segment` with `num = 2` (over a genuine shortest-path
distance matrix: symmetric, nonnegative, zero diagonal, triangle
inequality), the `uniques` stored by `__init__` — computed from the
`k_way_reps` seeds *before* the two seeds are overwritten with the most
distant pair — nevertheless equals the sorted first-occurrence positions
of the distinct values of the final (overwritten) `reps`.  Both are `[0]`
exactly when the matrix is identically zero and `[0, 1]` otherwise. -/
theorem initUniques_matches_finalReps
    (n : ℕ) (fdis : ℕ → ℕ → ℚ) (hn : 0 < n)
    (hsymm : ∀ i j, fdis i j = fdis j i)
    (hnonneg : ∀ i j, 0 ≤ fdis i j)
    (hdiag : ∀ i, fdis i i = 0)
    (htri : ∀ i j k, fdis i k ≤ fdis i j + fdis j k) :
    uniquesOf (initSeeds n fdis) = uniquesOf (finalReps n fdis) := by
  obtain ⟨m, rfl⟩ : ∃ m, n = m + 1 := ⟨n - 1, by omega⟩
  by_cases hz : ∀ i j, i < m + 1 → j < m + 1 → fdis i j = 0
  · have hrow : ∀ v ∈ rowSums (m + 1) fdis, v = 0 := by
      intro v hv
      rw [rowSums, List.mem_map] at hv
      obtain ⟨i, hi, rfl⟩ := hv
      rw [List.mem_range] at hi
      apply List.sum_eq_zero
      intro x hx
      rw [List.mem_map] at hx
      obtain ⟨j, hj, rfl⟩ := hx
      rw [List.mem_range] at hj
      exact hz i j hi hj
    have hr0 : initialRep (m + 1) fdis = 0 := argminIdx_const _ 0 hrow
    have hscan : farthestScan (m + 1) fdis [0] = (0, 0) := by
      rw [farthestScan_single]
      apply farthestFold_keep
      intro j hj
      rw [List.mem_range] at hj
      rw [hz j 0 hj (by omega)]
      simp
    have hseeds : initSeeds (m + 1) fdis = [0, 0] := by
      rw [initSeeds_eq, hr0, hscan]
    obtain ⟨ps, hps⟩ := pairList_cons m
    have hmax : argmax2 (m + 1) fdis = (0, 0) := by
      unfold argmax2
      rw [hps]
      apply bestFold_keep
      intro q hq
      have hqmem : q ∈ pairList (m + 1) := by
        rw [hps]; exact List.mem_cons_of_mem _ hq
      have hq12 : q.1 < m + 1 ∧ q.2 < m + 1 := by
        have := (pairList_mem (m + 1) q.1 q.2).mp (by rwa [Prod.mk.eta])
        exact this
      rw [hz q.1 q.2 hq12.1 hq12.2, hz 0 0 (by omega) (by omega)]
      simp
    have hfinal : finalReps (m + 1) fdis = [0, 0] := by
      unfold finalReps
      rw [hmax, hseeds]
      simp [List.set]
    rw [hseeds, hfinal]
  · push_neg at hz
    obtain ⟨i0, j0, hi0, hj0, hne0⟩ := hz
    have hpos0 : 0 < fdis i0 j0 := lt_of_le_of_ne (hnonneg i0 j0) (Ne.symm hne0)
    set r0 := initialRep (m + 1) fdis with hr0def
    have hcol : ∃ k, k < m + 1 ∧ 0 < fdis k r0 := by
      by_contra hcon
      push_neg at hcon
      have hc0 : ∀ k, k < m + 1 → fdis k r0 = 0 := fun k hk =>
        le_antisymm (hcon k hk) (hnonneg k r0)
      have htw : fdis i0 j0 ≤ fdis i0 r0 + fdis r0 j0 := htri i0 r0 j0
      rw [hc0 i0 hi0, hsymm r0 j0, hc0 j0 hj0] at htw
      linarith
    obtain ⟨k, hk, hkpos⟩ := hcol
    set sc := farthestScan (m + 1) fdis [r0] with hsc
    have hscfold : sc = (List.range (m + 1)).foldl
        (fun a j => if fdis j r0 > a.2 then (j, fdis j r0) else a) (0, 0) := by
      rw [hsc, farthestScan_single]
    have hsc2pos : 0 < sc.2 := by
      have h2 := (farthestFold_ge (fun j => fdis j r0) (List.range (m + 1)) (0, 0)).2 k
        (List.mem_range.mpr hk)
      rw [← hscfold] at h2
      exact lt_of_lt_of_le hkpos h2
    have hsound2 := farthestFold_sound (fun j => fdis j r0) (List.range (m + 1)) (0, 0)
      (Or.inl rfl)
    rw [← hscfold] at hsound2
    have hscval : sc.2 = fdis sc.1 r0 := by
      rcases hsound2 with h | h
      · rw [h] at hsc2pos; exact absurd hsc2pos (lt_irrefl 0)
      · exact h
    have hrep_ne : sc.1 ≠ r0 := by
      intro he
      rw [he, hdiag r0] at hscval
      rw [hscval] at hsc2pos
      exact lt_irrefl 0 hsc2pos
    have hseeds : initSeeds (m + 1) fdis = [r0, sc.1] := by
      rw [initSeeds_eq, ← hr0def, ← hsc]
    have huniq1 : uniquesOf (initSeeds (m + 1) fdis) = [0, 1] := by
      rw [hseeds, uniquesOf_pair, if_neg hrep_ne]
    obtain ⟨ps, hps⟩ := pairList_cons m
    set am := argmax2 (m + 1) fdis with ham
    have hamfold : am = ps.foldl
        (fun b q => if fdis q.1 q.2 > fdis b.1 b.2 then q else b) (0, 0) := by
      rw [ham]
      unfold argmax2
      rw [hps]
    have hmem0 : (i0, j0) ∈ pairList (m + 1) := (pairList_mem _ _ _).mpr ⟨hi0, hj0⟩
    have hamge : fdis i0 j0 ≤ fdis am.1 am.2 := by
      have hb := bestFold_ge (fun q => fdis q.1 q.2) ps (0, 0) (i0, j0)
        (by rw [hps] at hmem0; exact hmem0)
      rw [← hamfold] at hb
      exact hb
    have hampos : 0 < fdis am.1 am.2 := lt_of_lt_of_le hpos0 hamge
    have ham_ne : am.1 ≠ am.2 := by
      intro he
      rw [he, hdiag] at hampos
      exact lt_irrefl 0 hampos
    have hfinal : finalReps (m + 1) fdis = [min am.1 am.2, max am.1 am.2] := by
      unfold finalReps
      rw [← ham, hseeds]
      simp [List.set]
    rw [huniq1, hfinal, uniquesOf_pair, if_neg (by omega : ¬ max am.1 am.2 = min am.1 am.2)]

/-- C6 (witness): the two-face segment with the simplex distance matrix
(`0` on the diagonal, `1` off it). -/
theorem initUniques_matches_finalReps_witness :
    (0 : ℕ) < 2 ∧ uniquesOf (initSeeds 2 exDis) = uniquesOf (finalReps 2 exDis) :=
  ⟨by decide,
    initUniques_matches_finalReps 2 exDis (by decide)
      exDis_symm exDis_nonneg exDis_diag exDis_triangle⟩

/-! ## C7 — the k-medoid refinement loop of `Segment.seg` (lines 414–432)

The loop body is `compute_prob()` followed by `recompute_reps()` (which in
turn calls `assign()` and rewrites `prob`), then the `changed` test.  We
embed `assign` (lines 346–362) and `recompute_reps` (lines 364–384) in
full, and the loop as a fuel-20 recursion with break. -/

/-- `eps = 0.04 if self.num <= 3 else 0.02` (line 347). -/
def assignEps (num : ℕ) : ℚ := if num ≤ 3 then 1 / 25 else 1 / 50

/-- Line 349: `prob[[i for i in range(self.num) if i not in self.uniques]] = 0`. -/
def probZero (num : ℕ) (uniques : List ℕ) (prob : ℕ → ℕ → ℚ) : ℕ → ℕ → ℚ :=
  fun k f => if k < num ∧ k ∉ uniques then 0 else prob k f

/-- First index (by ascending scan, strict improvement) achieving the
maximal key among `idxs` — the tie-breaking of a stable descending sort,
hence of `heapq.nlargest`. -/
def argmaxIdxList (idxs : List ℕ) (key : ℕ → ℚ) : ℕ :=
  match idxs with
  | [] => 0
  | x :: xs => xs.foldl (fun b j => if key j > key b then j else b) x

/-- `heapq.nlargest(2, range(len(self.uniques)), prob[self.uniques, fid].take)`
(lines 352–354): the two positions into `uniques` with the largest keys,
ties resolved by position order. -/
def top2Slots (uniques : List ℕ) (key : ℕ → ℚ) : ℕ × ℕ :=
  let l1 := argmaxIdxList (List.range uniques.length) key
  let l2 := argmaxIdxList ((List.range uniques.length).filter fun j => j ≠ l1) key
  (l1, l2)

/-- The label `assign` writes to one face (lines 350–362).  In the
`len(uniques) == 1` branch the code sets `prob1, prob2 = 1.0, 0.0`, and
since `eps < 1` in both of its cases the gap test always succeeds there,
so that branch always assigns the crisp label `OFFSET + uniques[0]`. -/
def assignLabel (num OFFSET FUZZY : ℕ) (uniques : List ℕ)
    (pz : ℕ → ℕ → ℚ) (fid : ℕ) : ℕ :=
  if 1 < uniques.length then
    let key : ℕ → ℚ := fun j => pz (uniques.getD j 0) fid
    let l12 := top2Slots uniques key
    let prob1 := pz l12.1 fid
    let prob2 := pz l12.2 fid
    if prob1 - prob2 > assignEps num then OFFSET + l12.1
    else FUZZY + l12.1 * num + l12.2
  else
    OFFSET + uniques.getD 0 0

/-- `assign()` (lines 346–362): returns the labels of the `n` local faces
and the mutated (row-zeroed) `prob`. -/
def assignAll (n num OFFSET FUZZY : ℕ) (uniques : List ℕ)
    (prob : ℕ → ℕ → ℚ) (labels0 : ℕ → ℕ) : (ℕ → ℕ) × (ℕ → ℕ → ℚ) :=
  let pz := probZero num uniques prob
  (fun fid => if fid < n then assignLabel num OFFSET FUZZY uniques pz fid else labels0 fid,
    pz)

/-- `recompute_reps()` (lines 364–384): provisional `assign`, per-cluster
average distances (`+∞` for an empty cluster, whose reciprocal is 0), the
rewritten `prob`, the cost matrix `rep_cost = prob · f_dis`, and the new
row-argmin representatives.  Returns
`(new_reps, rep_cost, new_prob, labels)`. -/
def recomputeReps (n num OFFSET : ℕ) (fdis : ℕ → ℕ → ℚ) (uniques : List ℕ)
    (prob : ℕ → ℕ → ℚ) (labels0 : ℕ → ℕ) :
    List ℕ × (ℕ → ℕ → ℚ) × (ℕ → ℕ → ℚ) × (ℕ → ℕ) :=
  let a := assignAll n num OFFSET (OFFSET + num) uniques prob labels0
  let labels := a.1
  let countK : ℕ → ℕ := fun k =>
    ((List.range n).filter fun fid => labels fid = OFFSET + k).length
  let repDisSum : ℕ → ℕ → ℚ := fun k i =>
    (((List.range n).filter fun fid => labels fid = OFFSET + k).map fun fid =>
      fdis fid i).sum
  let invRep : ℕ → ℕ → ℚ := fun k i =>
    if countK k = 0 then 0
    else 1 / (repDisSum k i / (countK k : ℚ) + 1 / 1000000000000)
  let newProb : ℕ → ℕ → ℚ := fun k i =>
    invRep k i / ((List.range num).map fun u => invRep u i).sum
  let repCost : ℕ → ℕ → ℚ := fun k i =>
    ((List.range n).map fun f => newProb k f * fdis f i).sum
  let newReps := (List.range num).map fun k =>
    argminIdx ((List.range n).map fun i => repCost k i)
  (newReps, repCost, newProb, labels)

/-- The mutable state of `seg()` that the refinement loop reads and
writes: `self.reps`, `self.uniques`, the closure variable `prob`, and the
face labels. -/
structure SegState where
  reps : List ℕ
  uniques : List ℕ
  prob : ℕ → ℕ → ℚ
  labels : ℕ → ℕ

/-- The `changed` test (lines 420–427): some slot has both a strict cost
improvement beyond `1e−12` and a different representative. -/
def segChanged (cost : ℕ → ℕ → ℚ) (reps newReps : List ℕ) : Bool :=
  (List.range (min newReps.length reps.length)).any fun i =>
    decide (cost i (newReps.getD i 0) < cost i (reps.getD i 0) - 1 / 1000000000000) &&
    decide (newReps.getD i 0 ≠ reps.getD i 0)

/-- One round of the loop (lines 414–432): `compute_prob`,
`recompute_reps`, the `changed` test; on `changed` the new reps are
adopted and `uniques` recomputed, otherwise `reps`/`uniques` stay (the
`prob` and label mutations remain either way).  Returns the state and the
`changed` flag. -/
def segStep (n num OFFSET : ℕ) (fdis : ℕ → ℕ → ℚ) (s : SegState) : SegState × Bool :=
  let prob1 := computeProb n fdis s.reps s.uniques s.prob
  let rr := recomputeReps n num OFFSET fdis s.uniques prob1 s.labels
  if segChanged rr.2.1 s.reps rr.1 then
    (⟨rr.1, uniquesOf rr.1, rr.2.2.1, rr.2.2.2⟩, true)
  else
    (⟨s.reps, s.uniques, rr.2.2.1, rr.2.2.2⟩, false)

/-- `for _ in range(fuel): ... if changed: continue else: break`. -/
def loopWithBreak {α : Type} (step : α → α × Bool) : ℕ → α → α
  | 0, s => s
  | fuel + 1, s =>
    let r := step s
    if r.2 then loopWithBreak step fuel r.1 else r.1

/-- The state reached after unconditionally executing `k` rounds. -/
def stepIter {α : Type} (step : α → α × Bool) (s : α) : ℕ → α
  | 0 => s
  | k + 1 => (step (stepIter step s k)).1

/-- The refinement loop of `seg()`: at most 20 rounds (line 414). -/
def segLoop (n num OFFSET : ℕ) (fdis : ℕ → ℕ → ℚ) (s : SegState) : SegState :=
  loopWithBreak (segStep n num OFFSET fdis) 20 s

theorem stepIter_shift {α : Type} (step : α → α × Bool) (s : α) (j : ℕ) :
    stepIter step s (j + 1) = stepIter step (step s).1 j := by
  induction j with
  | zero => rfl
  | succ m ih =>
    show (step (stepIter step s (m + 1))).1 = (step (stepIter step (step s).1 m)).1
    rw [ih]

theorem loopWithBreak_spec {α : Type} (step : α → α × Bool) (fuel : ℕ) (s : α) :
    ((∀ j, j < fuel → (step (stepIter step s j)).2 = true) ∧
      loopWithBreak step fuel s = stepIter step s fuel) ∨
    (∃ j, j < fuel ∧ (step (stepIter step s j)).2 = false ∧
      (∀ i, i < j → (step (stepIter step s i)).2 = true) ∧
      loopWithBreak step fuel s = stepIter step s (j + 1)) := by
  induction fuel generalizing s with
  | zero =>
    left
    exact ⟨fun j hj => absurd hj (Nat.not_lt_zero j), rfl⟩
  | succ m ih =>
    have hunfold : loopWithBreak step (m + 1) s =
        if (step s).2 then loopWithBreak step m (step s).1 else (step s).1 := rfl
    by_cases hc : (step s).2 = true
    · rcases ih (step s).1 with ⟨hall, heq⟩ | ⟨j, hj, hf, hprev, heq⟩
      · left
        constructor
        · intro j hj
          cases j with
          | zero => exact hc
          | succ i => rw [stepIter_shift]; exact hall i (by omega)
        · rw [hunfold, hc, if_pos rfl, heq, ← stepIter_shift]
      · right
        refine ⟨j + 1, by omega, by rw [stepIter_shift]; exact hf, ?_, ?_⟩
        · intro i hi
          cases i with
          | zero => exact hc
          | succ i2 => rw [stepIter_shift]; exact hprev i2 (by omega)
        · rw [hunfold, hc, if_pos rfl, heq, ← stepIter_shift]
    · rw [Bool.not_eq_true] at hc
      right
      refine ⟨0, by omega, hc, fun i hi => absurd hi (Nat.not_lt_zero i), ?_⟩
      rw [hunfold, hc]
      rfl

/-- C7: the k-medoid refinement loop of `seg()` runs at most 20 rounds;
it stops at the first round whose `changed` test fails, i.e. the first
round in which every seed slot's new representative equals the old one or
fails to improve the old representative's cost by more than `1e−12`;
until then each round adopts the new representatives and recomputes
`uniques` (and rewrites `prob` and the labels either way). -/
theorem segLoop_stops_at_first_unimproved (n num OFFSET : ℕ)
    (fdis : ℕ → ℕ → ℚ) (s : SegState) :
    (((∀ j, j < 20 →
        (segStep n num OFFSET fdis (stepIter (segStep n num OFFSET fdis) s j)).2 = true) ∧
      segLoop n num OFFSET fdis s = stepIter (segStep n num OFFSET fdis) s 20) ∨
    (∃ j, j < 20 ∧
      (segStep n num OFFSET fdis (stepIter (segStep n num OFFSET fdis) s j)).2 = false ∧
      (∀ i, i < j →
        (segStep n num OFFSET fdis (stepIter (segStep n num OFFSET fdis) s i)).2 = true) ∧
      segLoop n num OFFSET fdis s = stepIter (segStep n num OFFSET fdis) s (j + 1))) ∧
    (∀ cost : ℕ → ℕ → ℚ, ∀ reps newReps : List ℕ,
      segChanged cost reps newReps = false ↔
        ∀ i, i < min newReps.length reps.length →
          newReps.getD i 0 = reps.getD i 0 ∨
          ¬ cost i (newReps.getD i 0) < cost i (reps.getD i 0) - 1 / 1000000000000) ∧
    (∀ st : SegState,
      (segStep n num OFFSET fdis st).2 =
        segChanged
          (recomputeReps n num OFFSET fdis st.uniques
            (computeProb n fdis st.reps st.uniques st.prob) st.labels).2.1
          st.reps
          (recomputeReps n num OFFSET fdis st.uniques
            (computeProb n fdis st.reps st.uniques st.prob) st.labels).1 ∧
      ((segStep n num OFFSET fdis st).2 = true →
        (segStep n num OFFSET fdis st).1.reps =
          (recomputeReps n num OFFSET fdis st.uniques
            (computeProb n fdis st.reps st.uniques st.prob) st.labels).1 ∧
        (segStep n num OFFSET fdis st).1.uniques =
          uniquesOf (recomputeReps n num OFFSET fdis st.uniques
            (computeProb n fdis st.reps st.uniques st.prob) st.labels).1) ∧
      ((segStep n num OFFSET fdis st).2 = false →
        (segStep n num OFFSET fdis st).1.reps = st.reps ∧
        (segStep n num OFFSET fdis st).1.uniques = st.uniques)) := by
  refine ⟨loopWithBreak_spec (segStep n num OFFSET fdis) 20 s, ?_, ?_⟩
  · intro cost reps newReps
    unfold segChanged
    rw [List.any_eq_false]
    constructor
    · intro h i hi
      have := h i (List.mem_range.mpr hi)
      simp only [Bool.and_eq_true, decide_eq_true_eq, not_and] at this
      by_cases hlt : cost i (newReps.getD i 0) < cost i (reps.getD i 0) - 1 / 1000000000000
      · left
        by_contra hne
        exact this hlt hne
      · right; exact hlt
    · intro h x hx
      rw [List.mem_range] at hx
      simp only [Bool.and_eq_true, decide_eq_true_eq, not_and]
      intro hlt hne
      rcases h x hx with he | hnl
      · exact hne he
      · exact hnl hlt
  · intro st
    set rr := recomputeReps n num OFFSET fdis st.uniques
        (computeProb n fdis st.reps st.uniques st.prob) st.labels with hrr
    have hunf : segStep n num OFFSET fdis st =
        (if segChanged rr.2.1 st.reps rr.1 then
          ((⟨rr.1, uniquesOf rr.1, rr.2.2.1, rr.2.2.2⟩ : SegState), true)
        else (⟨st.reps, st.uniques, rr.2.2.1, rr.2.2.2⟩, false)) := by
      rw [hrr]
      rfl
    by_cases hcase : segChanged rr.2.1 st.reps rr.1 = true
    · rw [hunf, if_pos hcase]
      refine ⟨hcase.symm, fun _ => ⟨rfl, rfl⟩, fun h => absurd h ?_⟩
      simp
    · rw [Bool.not_eq_true] at hcase
      rw [hunf, if_neg (by rw [hcase]; exact Bool.false_ne_true)]
      refine ⟨hcase.symm, fun h => absurd h ?_, fun _ => ⟨rfl, rfl⟩⟩
      simp

/-! ## C8 — zero-length normals (`Face.__init__`, lines 39–43, and model
construction, lines 67–78)

`Face.__init__` computes `n = np.cross(vs[1]-vs[0], vs[2]-vs[0])` and
stores `n if norm(n) < 1e-12 else n / norm(n)` — the degenerate branch
keeps the raw (near-zero) vector and no exception is raised anywhere.
Model construction (`compute_neighbor`, `compute_dis`) computes float
quantities from the geometry (possibly NaN, with warnings but no
exception); the only rejection in the pipeline is the assertion
`all(len(f.nbrs) == 3)` in `compute_shortest` (line 158), which reads the
face connectivity alone. -/

/-- 3-vectors over `ℚ`. -/
def Vec3 : Type := ℚ × ℚ × ℚ

/-- Componentwise difference. -/
def vsub (a b : Vec3) : Vec3 := (a.1 - b.1, a.2.1 - b.2.1, a.2.2 - b.2.2)

/-- `np.cross`. -/
def cross (u v : Vec3) : Vec3 :=
  (u.2.1 * v.2.2 - u.2.2 * v.2.1,
   u.2.2 * v.1 - u.1 * v.2.2,
   u.1 * v.2.1 - u.2.1 * v.1)

/-- Squared Euclidean norm (`norm(n) < 1e-12` is `normSq n < 1e-24` since
both sides are nonnegative). -/
def normSq (u : Vec3) : ℚ := u.1 ^ 2 + u.2.1 ^ 2 + u.2.2 ^ 2

/-- `n = np.cross(vs[1] - vs[0], vs[2] - vs[0])` (line 39). -/
def faceNormalRaw (v0 v1 v2 : Vec3) : Vec3 := cross (vsub v1 v0) (vsub v2 v0)

/-- The stored unit normal (line 41): the raw vector when its length is
below `1e-12`, otherwise the normalized vector (whose exact value is
irrational; the raw vector is recorded). -/
inductive StoredNorm
  | raw (v : Vec3)
  | normalized (v : Vec3)

/-- `self.norm = n if norm_len < 1e-12 else n / norm_len` (line 41). -/
def faceNorm (v0 v1 v2 : Vec3) : StoredNorm :=
  let n := faceNormalRaw v0 v1 v2
  if normSq n < 1 / 1000000000000000000000000 then .raw n else .normalized n

/-- `(min, max)`-canonicalized edge (lines 108–110). -/
def canonEdge (a b : ℕ) : ℕ × ℕ := if a < b then (a, b) else (b, a)

/-- The three canonical edges a face contributes, in source order
(lines 114–121). -/
def faceEdges (f : ℕ × ℕ × ℕ) : List (ℕ × ℕ) :=
  [canonEdge f.1 f.2.1, canonEdge f.2.1 f.2.2, canonEdge f.2.2 f.1]

/-- All `(edge, face)` records in construction order (lines 113–121). -/
def edgeList (fs : List (ℕ × ℕ × ℕ)) : List ((ℕ × ℕ) × ℕ) :=
  (List.range fs.length).flatMap fun i =>
    (faceEdges (fs.getD i (0, 0, 0))).map fun e => (e, i)

/-- The `visited_es` dictionary pass (lines 123–137), tracking only how
many `NeighborInfo` records each face receives. -/
def nbrCounts (fs : List (ℕ × ℕ × ℕ)) : ℕ → ℕ :=
  ((edgeList fs).foldl
    (fun (st : List ((ℕ × ℕ) × ℕ) × (ℕ → ℕ)) p =>
      match st.1.lookup p.1 with
      | none => ((p.1, p.2) :: st.1, st.2)
      | some f0 =>
        (st.1, fun x =>
          st.2 x + (if x = f0 then 1 else 0) + (if x = p.2 then 1 else 0)))
    ([], fun _ => 0)).2

/-- The only rejection of the pipeline: the assertion
`all([len(x) == 3 for x in f_nbrs_id])` of `compute_shortest` (line 158).
`vs` is accepted as an argument to mirror `Model.__init__`, but no check
in the pipeline reads it. -/
def modelBuildsOk (vs : List Vec3) (fs : List (ℕ × ℕ × ℕ)) : Bool :=
  (List.range fs.length).all fun i => nbrCounts fs i = 3

/-- The tetrahedron `0123` with vertices `(0,0,0), (1,0,0), (2,0,0),
(0,1,0)`: combinatorially every face has three neighbors, but face
`(0,1,2)` is geometrically degenerate (collinear vertices). -/
def exVerts : List Vec3 := [(0, 0, 0), (1, 0, 0), (2, 0, 0), (0, 1, 0)]

/-- The four faces of the example tetrahedron. -/
def exFaces : List (ℕ × ℕ × ℕ) := [(0, 1, 2), (0, 1, 3), (0, 2, 3), (1, 2, 3)]

/-- C8 (counterexample): a mesh containing a face whose computed normal
is exactly zero is *not* rejected: the degenerate face keeps the raw zero
vector as its stored normal and the pipeline's only assertion (three
neighbors per face) passes, so processing proceeds. -/
theorem degenerate_normal_not_rejected :
    faceNormalRaw (0, 0, 0) (1, 0, 0) (2, 0, 0) = ((0 : ℚ), (0 : ℚ), (0 : ℚ)) ∧
    faceNorm (0, 0, 0) (1, 0, 0) (2, 0, 0) = .raw (0, 0, 0) ∧
    modelBuildsOk exVerts exFaces = true := by
  refine ⟨?_, ?_, ?_⟩
  · show cross (vsub (1, 0, 0) (0, 0, 0)) (vsub (2, 0, 0) (0, 0, 0)) = _
    simp [cross, vsub]
  · show faceNorm (0, 0, 0) (1, 0, 0) (2, 0, 0) = _
    unfold faceNorm
    have h : faceNormalRaw (0, 0, 0) (1, 0, 0) (2, 0, 0) = ((0 : ℚ), (0 : ℚ), (0 : ℚ)) := by
      simp [faceNormalRaw, cross, vsub]
    rw [h]
    rw [if_pos (by norm_num [normSq])]
  · decide

/-- C8 (amended): the pipeline does **not** treat a zero-length normal as
an input-format error.  `Face.__init__` stores the raw (near-zero) vector
whenever its squared length is below `1e-24`, and whether a mesh is
accepted is independent of the vertex geometry altogether — only the
three-neighbors assertion can reject a mesh. -/
theorem zero_normal_kept_and_acceptance_geometry_blind :
    (∀ v0 v1 v2 : Vec3, faceNormalRaw v0 v1 v2 = ((0 : ℚ), (0 : ℚ), (0 : ℚ)) →
      faceNorm v0 v1 v2 = .raw ((0 : ℚ), (0 : ℚ), (0 : ℚ))) ∧
    (∀ (vs vs2 : List Vec3) (fs : List (ℕ × ℕ × ℕ)),
      modelBuildsOk vs fs = modelBuildsOk vs2 fs) := by
  constructor
  · intro v0 v1 v2 h
    unfold faceNorm
    rw [h]
    rw [if_pos (by norm_num [normSq])]
  · intro vs vs2 fs
    rfl

/-! ## C10 — `Model.read_ply` (lines 47–65)

Each line is modelled as its list of space-separated tokens (the result
of Python's `line.split(" ")`, which `read_ply` applies to every line it
inspects).  Under that tokenization, `line == "endheader"` is
`tokens = ["endheader"]` and `line.startswith("element vertex")` is
`tokens.take 2 = ["element", "vertex"]` (header lines are exactly of that
shape).  `int(...)`/`float(...)` are modelled by executable parsers for
plain decimal literals; a parse failure or a failed tuple unpacking is an
input-format error (`none`). -/

/-- Value of a decimal digit. -/
def digitVal (c : Char) : Option ℕ :=
  if c = '0' then some 0
  else if c = '1' then some 1
  else if c = '2' then some 2
  else if c = '3' then some 3
  else if c = '4' then some 4
  else if c = '5' then some 5
  else if c = '6' then some 6
  else if c = '7' then some 7
  else if c = '8' then some 8
  else if c = '9' then some 9
  else none

/-- Accumulate a digit string. -/
def digitsValAux : List Char → ℕ → Option ℕ
  | [], acc => some acc
  | c :: cs, acc =>
    match digitVal c with
    | some d => digitsValAux cs (10 * acc + d)
    | none => none

/-- A nonempty all-digit string. -/
def digitsVal : List Char → Option ℕ
  | [] => none
  | cs => digitsValAux cs 0

/-- Python `int(...)` on a token (plain optionally-signed decimals). -/
def parseIntTok (s : String) : Option ℤ :=
  match s.data with
  | '-' :: cs => (digitsVal cs).map fun k => -(k : ℤ)
  | cs => (digitsVal cs).map fun k => (k : ℤ)

/-- Integer-or-fraction part of Python `float(...)`. -/
def parseDecimalCore (cs : List Char) : Option ℚ :=
  match cs.span fun c => c != '.' with
  | (ip, []) => (digitsVal ip).map fun k => (k : ℚ)
  | (ip, _ :: fp) =>
    match digitsVal ip, digitsVal fp with
    | some i, some f => some ((i : ℚ) + (f : ℚ) / (10 : ℚ) ^ fp.length)
    | _, _ => none

/-- Python `float(...)` on a token (plain decimal literals). -/
def parseDecimalTok (s : String) : Option ℚ :=
  match s.data with
  | '-' :: cs => (parseDecimalCore cs).map Neg.neg
  | cs => parseDecimalCore cs

/-- `x, y, z = line.split(" ")[:3]` then three `float`s (lines 60–61). -/
def parseVertexLine (tks : List String) : Option (ℚ × ℚ × ℚ) :=
  match tks.take 3 with
  | [x, y, z] =>
    match parseDecimalTok x, parseDecimalTok y, parseDecimalTok z with
    | some a, some b, some c => some (a, b, c)
    | _, _, _ => none
  | _ => none

/-- `v1, v2, v3 = line.split(" ")[1:4]` then three `int`s (lines 63–64):
the leading token (the declared vertex count of the face, `3` in a
well-formed file) is skipped without any check, and tokens past position
3 are ignored. -/
def parseFaceLine (tks : List String) : Option (ℤ × ℤ × ℤ) :=
  match (tks.drop 1).take 3 with
  | [a, b, c] =>
    match parseIntTok a, parseIntTok b, parseIntTok c with
    | some x, some y, some z => some (x, y, z)
    | _, _, _ => none
  | _ => none

/-- The header scan (lines 52–58): `v_num`/`f_num` start at 0, every line
is inspected until one equals `endheader`; `element vertex`/`element
face` lines overwrite the counts with `int(last token)`. -/
def headerScanAux : List (List String) → ℤ → ℤ → Option (ℤ × ℤ)
  | [], v, f => some (v, f)
  | tks :: rest, v, f =>
    if tks.take 2 = ["element", "vertex"] then
      match parseIntTok (tks.getLastD "") with
      | none => none
      | some k => headerScanAux rest k f
    else if tks.take 2 = ["element", "face"] then
      match parseIntTok (tks.getLastD "") with
      | none => none
      | some k => headerScanAux rest v k
    else if tks = [("endheader" : String)] then some (v, f)
    else headerScanAux rest v f

/-- The header scan from the start of the file. -/
def headerScan (lines : List (List String)) : Option (ℤ × ℤ) :=
  headerScanAux lines 0 0

/-- Python index resolution for a (possibly negative) slice bound. -/
def pyIdx (len : ℕ) (i : ℤ) : ℕ :=
  if i < 0 then ((len : ℤ) + i).toNat else min i.toNat len

/-- Python `l[s:e]`. -/
def pySlice {α : Type} (l : List α) (s e : ℤ) : List α :=
  (l.take (pyIdx l.length e)).drop (pyIdx l.length s)

/-- Python `l[s:]`. -/
def pySliceFrom {α : Type} (l : List α) (s : ℤ) : List α :=
  l.drop (pyIdx l.length s)

/-- Sequence a list of optional results, failing on the first `none` —
the behavior of the parse loops, whose first bad line raises. -/
def allSome {α : Type} : List (Option α) → Option (List α)
  | [] => some []
  | none :: _ => none
  | some x :: rest => (allSome rest).map fun ys => x :: ys

/-- `Model.read_ply` (lines 47–65): scan the header for the counts, then
parse `lines[-(v_num+f_num):-f_num]` as vertices and `lines[-f_num:]` as
faces. -/
def readPly (lines : List (List String)) : Option (List (ℚ × ℚ × ℚ) × List (ℤ × ℤ × ℤ)) :=
  match headerScan lines with
  | none => none
  | some (v, f) =>
    match allSome ((pySlice lines (-(v + f)) (-f)).map parseVertexLine),
          allSome ((pySliceFrom lines (-f)).map parseFaceLine) with
    | some vs, some fs => some (vs, fs)
    | _, _ => none

/-- The last `k` lines of the file. -/
def lastSlice {α : Type} (l : List α) (k : ℕ) : List α :=
  l.drop (l.length - k)

theorem pySlice_neg_eq {α : Type} (l : List α) (n m : ℕ) (hm : 0 < m)
    (hlen : n + m ≤ l.length) :
    pySlice l (-((n : ℤ) + (m : ℤ))) (-(m : ℤ)) = (lastSlice l (n + m)).take n := by
  unfold pySlice lastSlice pyIdx
  rw [if_pos (by omega : -((n : ℤ) + (m : ℤ)) < 0), if_pos (by omega : -((m : ℤ)) < 0)]
  have h1 : ((l.length : ℤ) + -((n : ℤ) + (m : ℤ))).toNat = l.length - (n + m) := by omega
  have h2 : ((l.length : ℤ) + -((m : ℤ))).toNat = l.length - m := by omega
  rw [h1, h2, List.drop_take]
  congr 1
  omega

theorem pySliceFrom_neg_eq {α : Type} (l : List α) (m : ℕ) (hm : 0 < m) :
    pySliceFrom l (-(m : ℤ)) = lastSlice l m := by
  unfold pySliceFrom lastSlice pyIdx
  rw [if_pos (by omega : -((m : ℤ)) < 0)]
  congr 1
  omega

theorem lastSlice_drop {α : Type} (l : List α) (n m : ℕ) (hlen : n + m ≤ l.length) :
    (lastSlice l (n + m)).drop n = lastSlice l m := by
  unfold lastSlice
  rw [List.drop_drop]
  congr 1
  omega

theorem allSome_exists {α : Type} (l : List (Option α)) (h : ∀ x ∈ l, x.isSome) :
    ∃ ys, allSome l = some ys := by
  induction l with
  | nil => exact ⟨[], rfl⟩
  | cons x xs ih =>
    obtain ⟨y, hy⟩ := Option.isSome_iff_exists.mp (h x (List.mem_cons_self _ _))
    obtain ⟨ys, hys⟩ := ih fun z hz => h z (List.mem_cons_of_mem x hz)
    subst hy
    exact ⟨y :: ys, by simp [allSome, hys]⟩

/-- The example file of the counterexample: a header declaring one vertex
and zero faces, then the vertex line. -/
def exPlyLines : List (List String) :=
  [["element", "vertex", "1"], ["element", "face", "0"], ["endheader"],
   ["0", "0", "0"]]

/-- C10 (counterexample): with declared counts `N = 1`, `M = 0`, the last
`N + M = 1` lines are a well-formed vertex line, yet `read_ply` fails:
`lines[-(N+M):-0]` is the *empty* slice (Python's `-0` is `0`), no vertex
is parsed, and `lines[-0:]` makes the **whole file** the face block, whose
first line fails integer unpacking — an input-format error.  So the
claim's universal acceptance is false at `M = 0`. -/
theorem readPly_claim_false :
    headerScan exPlyLines = some (1, 0) ∧
      (∀ tl ∈ lastSlice exPlyLines 1, (parseVertexLine tl).isSome) ∧
      readPly exPlyLines = none := by
  refine ⟨by decide, ?_, by decide⟩
  intro tl htl
  have h : tl = ["0", "0", "0"] := by
    have : lastSlice exPlyLines 1 = [["0", "0", "0"]] := by decide
    rw [this] at htl
    simpa using htl
  subst h
  decide

/-- C10 (amended): for every tokenized input whose header scan yields
counts `N` and `M ≥ 1` with `N + M` no larger than the file, and whose
last `N + M` lines have enough tokens — the first three tokens of each of
the `N` vertex lines parse as decimals, and tokens 1–3 of each of the `M`
face lines parse as integers — `read_ply` accepts the file.  Moreover the
result is determined by the header counts together with the last `N + M`
lines alone (so the presence or absence of an `endheader` line changes
nothing beyond the counts), a face line's result ignores its leading
token (never compared to 3) and every token beyond position 3, and a
vertex line's result ignores every token beyond position 2. -/
theorem readPly_positional_and_permissive
    (lines : List (List String)) (n m : ℕ)
    (hh : headerScan lines = some ((n : ℤ), (m : ℤ)))
    (hm : 0 < m)
    (hlen : n + m ≤ lines.length)
    (hv : ∀ tl ∈ (lastSlice lines (n + m)).take n, (parseVertexLine tl).isSome)
    (hf : ∀ tl ∈ lastSlice lines m, (parseFaceLine tl).isSome) :
    (readPly lines).isSome = true ∧
    (∀ lines2 : List (List String),
      headerScan lines2 = some ((n : ℤ), (m : ℤ)) →
      n + m ≤ lines2.length →
      lastSlice lines2 (n + m) = lastSlice lines (n + m) →
      readPly lines2 = readPly lines) ∧
    (∀ tks tks2 : List String, (tks.drop 1).take 3 = (tks2.drop 1).take 3 →
      parseFaceLine tks = parseFaceLine tks2) ∧
    (∀ tks tks2 : List String, tks.take 3 = tks2.take 3 →
      parseVertexLine tks = parseVertexLine tks2) := by
  have hcast : ((n : ℤ) + (m : ℤ)) = ((n + m : ℕ) : ℤ) := by push_cast; ring
  have hslices : ∀ l2 : List (List String), n + m ≤ l2.length →
      pySlice l2 (-((n : ℤ) + (m : ℤ))) (-(m : ℤ)) = (lastSlice l2 (n + m)).take n ∧
      pySliceFrom l2 (-(m : ℤ)) = (lastSlice l2 (n + m)).drop n := by
    intro l2 hl2
    refine ⟨pySlice_neg_eq l2 n m hm hl2, ?_⟩
    rw [pySliceFrom_neg_eq l2 m hm, lastSlice_drop l2 n m hl2]
  have hbody : ∀ l2 : List (List String),
      headerScan l2 = some ((n : ℤ), (m : ℤ)) → n + m ≤ l2.length →
      readPly l2 =
        match allSome (((lastSlice l2 (n + m)).take n).map parseVertexLine),
              allSome (((lastSlice l2 (n + m)).drop n).map parseFaceLine) with
        | some vs, some fs => some (vs, fs)
        | _, _ => none := by
    intro l2 h2 hl2
    unfold readPly
    rw [h2]
    dsimp only
    rw [(hslices l2 hl2).1, (hslices l2 hl2).2]
  refine ⟨?_, ?_, ?_, ?_⟩
  · rw [hbody lines hh hlen]
    obtain ⟨vs, hvs⟩ := allSome_exists _ (by
      intro x hx
      rw [List.mem_map] at hx
      obtain ⟨tl, htl, rfl⟩ := hx
      exact hv tl htl)
    obtain ⟨fs, hfs⟩ := allSome_exists _ (by
      intro x hx
      rw [List.mem_map] at hx
      obtain ⟨tl, htl, rfl⟩ := hx
      apply hf tl
      rw [← lastSlice_drop lines n m hlen]
      exact htl)
    rw [hvs, hfs]
    rfl
  · intro lines2 h2 h2len h2tail
    rw [hbody lines hh hlen, hbody lines2 h2 h2len, h2tail]
  · intro tks tks2 h
    unfold parseFaceLine
    rw [h]
  · intro tks tks2 h
    unfold parseVertexLine
    rw [h]

/-- C10 (witness for the amended theorem): a complete well-formed file —
including a face line whose leading token is `7` rather than `3` and
which carries extra trailing tokens — is accepted. -/
theorem readPly_positional_and_permissive_witness :
    headerScan [["element", "vertex", "1"], ["element", "face", "1"],
      ["endheader"], ["0", "0", "0"], ["7", "0", "0", "0", "255", "255"]] =
        some (1, 1) ∧
    (readPly [["element", "vertex", "1"], ["element", "face", "1"],
      ["endheader"], ["0", "0", "0"], ["7", "0", "0", "0", "255", "255"]]).isSome = true := by
  constructor
  · decide
  · exact (readPly_positional_and_permissive _ 1 1 (by decide) (by decide) (by decide)
      (by intro tl htl; fin_cases htl <;> decide)
      (by intro tl htl; fin_cases htl <;> decide)).1

/-! ## The max-flow routine `Model.compute_flow` (lines 172–244)

Needed for C3 and C4.  Nodes are `0 .. nf−1` (faces), `start = nf` and
`target = nf+1`.  `es[x]` is the list of arcs out of `x`: for every face
its three neighbor arcs with capacity `1/(1 + ang_dis/avg_ang_dis)`, an
arc to `target` appended for role-2 faces, and `es[start]` holds one
infinite arc to every role-1 node.  (The loop at lines 202–205 resets
flows that are already zero; it is a no-op and not modelled.)  The `while
True` loop, its breadth-first search, and the backward flow update are
modelled with fuel: a `none` result means the fuel ran out, and every
theorem is conditional on termination, mirroring "when `compute_flow`
terminates". -/

/-- One directed arc of the flow graph; `cap = none` is `float("inf")`.
The source fields are `fro`/`to`; `to` is a Lean keyword, so the head is
called `dst`. -/
structure FlowEdge where
  fro : ℕ
  dst : ℕ
  cap : Option ℚ
  flow : ℚ

/-- `e.cap > e.flow`. -/
def capGtFlow : Option ℚ → ℚ → Bool
  | none, _ => true
  | some c, fl => decide (fl < c)

/-- `e.cap - e.flow` as an extended rational. -/
def residual : Option ℚ → ℚ → WithTop ℚ
  | none, _ => ⊤
  | some c, fl => ((c - fl : ℚ) : WithTop ℚ)

/-- The graph `es` built at lines 189–201 from the face adjacency
(`nbrs i` lists `(n.fid, n.ang_dis)` in order) and the role vector. -/
def buildEdges (nf : ℕ) (nbrs : ℕ → List (ℕ × ℚ)) (avg : ℚ) (ft : ℕ → ℕ) :
    List (List FlowEdge) :=
  ((List.range nf).map fun i =>
    ((nbrs i).map fun p => FlowEdge.mk i p.1 (some (1 / (1 + p.2 / avg))) 0) ++
      (if ft i = 2 then [FlowEdge.mk i (nf + 1) none 0] else []))
  ++ [((List.range (nf + 2)).filter fun i => ft i = 1).map fun i =>
        FlowEdge.mk nf i none 0]
  ++ [[]]

/-- State of one breadth-first search: the flow values `a`, the parents
`p`, the queue and `q_history`. -/
structure BfsState where
  a : ℕ → WithTop ℚ
  p : ℕ → Option ℕ
  q : List ℕ
  hist : List ℕ

/-- Lines 216–222: scan the arcs of the dequeued node `cur`, reaching
every unvisited nonzero-role endpoint with residual capacity. -/
def bfsEdgeFold (ft : ℕ → ℕ) (cur : ℕ) (arcs : List FlowEdge) (st : BfsState) :
    BfsState :=
  arcs.foldl
    (fun st2 e =>
      if ft e.dst ≠ 0 ∧ st2.a e.dst = 0 ∧ capGtFlow e.cap e.flow then
        { a := Function.update st2.a e.dst (min (st2.a cur) (residual e.cap e.flow)),
          p := Function.update st2.p e.dst (some cur),
          q := st2.q ++ [e.dst],
          hist := st2.hist ++ [e.dst] }
      else st2)
    st

/-- Lines 209–224: the BFS loop (`while not q.empty()`), stopping early
once `a[target]` is set. -/
def bfsLoop (ft : ℕ → ℕ) (es : List (List FlowEdge)) (target : ℕ) :
    ℕ → BfsState → Option BfsState
  | 0, _ => none
  | fuel + 1, st =>
    match st.q with
    | [] => some st
    | cur :: qrest =>
      let st2 := bfsEdgeFold ft cur (es.getD cur []) ⟨st.a, st.p, qrest, st.hist⟩
      if st2.a target ≠ 0 then some st2
      else bfsLoop ft es target fuel st2

/-- One full BFS from `start` with fresh `a`, `p`, queue and history. -/
def runBFS (ft : ℕ → ℕ) (es : List (List FlowEdge)) (start target fuel : ℕ) :
    Option BfsState :=
  bfsLoop ft es target fuel
    ⟨Function.update (fun _ => 0) start ⊤, fun _ => none, [start], []⟩

/-- Lines 234–242 (path recovery): the `(parent, child)` pairs from
`target` back to `start`. -/
def pathPairs (p : ℕ → Option ℕ) (start : ℕ) : ℕ → ℕ → Option (List (ℕ × ℕ))
  | 0, _ => none
  | fuel + 1, cur =>
    if cur = start then some []
    else
      match p cur with
      | none => none
      | some par => (pathPairs p start fuel par).map fun rest => (par, cur) :: rest

/-- Add `d` to the flow of every arc `x → y` (the code scans the whole
arc list of `x` for matches). -/
def addFlowOnArcs (es : List (List FlowEdge)) (x y : ℕ) (d : ℚ) :
    List (List FlowEdge) :=
  es.set x ((es.getD x []).map fun e =>
    if e.dst = y then { e with flow := e.flow + d } else e)

/-- Lines 234–242: push `d` along the recovered path — `+d` on each
forward arc, `−d` on each backward arc. -/
def augmentAlong (es : List (List FlowEdge)) (d : ℚ) (pairs : List (ℕ × ℕ)) :
    List (List FlowEdge) :=
  pairs.foldl
    (fun es2 pr => addFlowOnArcs (addFlowOnArcs es2 pr.1 pr.2 d) pr.2 pr.1 (-d))
    es

/-- Lines 226–232: at the final BFS, `q_history` becomes role 1 and every
remaining role-3 face becomes role 2. -/
def finalTypes (nf : ℕ) (ft : ℕ → ℕ) (hist : List ℕ) : ℕ → ℕ :=
  fun i =>
    let t1 := if i ∈ hist then 1 else ft i
    if i < nf ∧ t1 = 3 then 2 else t1

/-- The `while True` loop of `compute_flow` (lines 207–243).  Returns the
final role vector, `sum_flow`, the last BFS history, and the final arc
lists. -/
def computeFlowLoop (nf : ℕ) (ft : ℕ → ℕ) :
    ℕ → List (List FlowEdge) → ℚ →
    Option ((ℕ → ℕ) × ℚ × List ℕ × List (List FlowEdge))
  | 0, _, _ => none
  | fuel + 1, es, sumFlow =>
    match runBFS ft es nf (nf + 1) (es.length + 2) with
    | none => none
    | some st =>
      if hzero : st.a (nf + 1) = 0 then
        some (finalTypes nf ft st.hist, sumFlow, st.hist, es)
      else
        match st.a (nf + 1) with
        | ⊤ => none
        | (d : ℚ) =>
          match pathPairs st.p nf (es.length + 2) (nf + 1) with
          | none => none
          | some pairs =>
            computeFlowLoop nf ft fuel (augmentAlong es d pairs) (sumFlow + d)

/-- `Model.compute_flow` (lines 172–244): `f_types` is extended with the
roles `4, 4` of the two virtual nodes, the graph is built, and the
augmenting loop runs. -/
def computeFlow (nf : ℕ) (nbrs : ℕ → List (ℕ × ℚ)) (avg : ℚ) (ft0 : ℕ → ℕ)
    (fuel : ℕ) : Option ((ℕ → ℕ) × ℚ × List ℕ × List (List FlowEdge)) :=
  let ft : ℕ → ℕ := fun i => if i < nf then ft0 i else 4
  computeFlowLoop nf ft fuel (buildEdges nf nbrs avg ft) 0

theorem computeFlowLoop_types (nf : ℕ) (ft : ℕ → ℕ) (fuel : ℕ)
    (es : List (List FlowEdge)) (sumFlow : ℚ) (r : (ℕ → ℕ) × ℚ × List ℕ × List (List FlowEdge))
    (h : computeFlowLoop nf ft fuel es sumFlow = some r) :
    ∀ x, r.1 x = 1 ∨ r.1 x = 2 ∨ (r.1 x = ft x ∧ ¬ (x < nf ∧ ft x = 3)) := by
  induction fuel generalizing es sumFlow with
  | zero => exact absurd h (by simp [computeFlowLoop])
  | succ m ih =>
    rw [computeFlowLoop] at h
    rcases hbfs : runBFS ft es nf (nf + 1) (es.length + 2) with _ | st
    · rw [hbfs] at h
      exact absurd h (by simp)
    · rw [hbfs] at h
      simp only at h
      by_cases hzero : st.a (nf + 1) = 0
      · rw [dif_pos hzero] at h
        intro x
        have hr : r.1 = finalTypes nf ft st.hist := by
          have := (Option.some_inj.mp h)
          rw [← this]
        rw [hr]
        unfold finalTypes
        by_cases hmem : x ∈ st.hist
        · simp only [hmem, if_pos]
          left
          simp
        · simp only [hmem, if_neg, if_false]
          by_cases h3 : x < nf ∧ ft x = 3
          · right; left
            simp [h3]
          · right; right
            simp [h3]
      · rw [dif_neg hzero] at h
        rcases hval : st.a (nf + 1) with _ | d
        · rw [hval] at h
          exact absurd h (by simp)
        · rw [hval] at h
          rcases hpp : pathPairs st.p nf (es.length + 2) (nf + 1) with _ | pairs
          · rw [hpp] at h
            exact absurd h (by simp)
          · rw [hpp] at h
            simp only at h
            exact ih _ _ h

/-! ## C3 — the final `assign()` + `assign_fuzzy()` of `seg()` (lines
346–362, 386–412, 434–436)

After the refinement loop, `seg()` runs one final `recompute_reps()`,
one final `assign()` (which overwrites the label of **every** local
face), then `assign_fuzzy()`, which for each pair `i < j` of `uniques`
classifies roles over the global face set, runs `compute_flow`, and turns
role-1/role-2 faces of the segment into the crisp labels
`OFFSET + i` / `OFFSET + j`. -/

/-- The global relabeling performed by the final `assign()`: local face
`idx` is `fids[idx]` globally, and later writes win. -/
def applyAssign (n : ℕ) (fids : List ℕ) (localLab : ℕ → ℕ) (labels0 : ℕ → ℕ) :
    ℕ → ℕ :=
  (List.range n).foldl
    (fun lab idx => Function.update lab (fids.getD idx 0) (localLab idx)) labels0

/-- Whether a face label is one of the two fuzzy labels of the pair
`(i, j)` (line 394–397). -/
def isFuzzyFor (num FUZZY i j : ℕ) (lab : ℕ) : Bool :=
  decide (lab = FUZZY + i * num + j) || decide (lab = FUZZY + j * num + i)

/-- STEP 1 of `assign_fuzzy` (lines 391–404): role 3 for the segment's
fuzzy faces of the pair, role 1/2 for crisp `OFFSET+i` / `OFFSET+j`
neighbors of a fuzzy face, role 0 otherwise.  The loop's writes are
pointwise disjoint (a face has one label), so the classification is
order-independent. -/
def classifyTypes (num OFFSET FUZZY i j : ℕ) (fids : List ℕ)
    (labels : ℕ → ℕ) (gNbrs : ℕ → List ℕ) : ℕ → ℕ :=
  fun x =>
    if x ∈ fids ∧ isFuzzyFor num FUZZY i j (labels x) then 3
    else if labels x = OFFSET + i ∧
        (fids.any fun f => isFuzzyFor num FUZZY i j (labels f) && decide (x ∈ gNbrs f)) then 1
    else if labels x = OFFSET + j ∧
        (fids.any fun f => isFuzzyFor num FUZZY i j (labels f) && decide (x ∈ gNbrs f)) then 2
    else 0

/-- STEPs 2–3 of `assign_fuzzy` for one pair (lines 405–412). -/
def assignFuzzyStep (num OFFSET FUZZY nf : ℕ) (fids : List ℕ)
    (gNbrs : ℕ → List ℕ) (nbrsW : ℕ → List (ℕ × ℚ)) (avg : ℚ) (fuel : ℕ)
    (labels : ℕ → ℕ) (pr : ℕ × ℕ) : Option (ℕ → ℕ) :=
  let ft0 := classifyTypes num OFFSET FUZZY pr.1 pr.2 fids labels gNbrs
  match computeFlow nf nbrsW avg ft0 fuel with
  | none => none
  | some r =>
    some fun g =>
      if g ∈ fids ∧ r.1 g = 1 then OFFSET + pr.1
      else if g ∈ fids ∧ r.1 g = 2 then OFFSET + pr.2
      else labels g

/-- The ordered pairs `i < j` drawn from `uniques` (lines 387–390). -/
def uniquePairs (uniques : List ℕ) : List (ℕ × ℕ) :=
  uniques.flatMap fun i => (uniques.filter fun j => decide (i < j)).map fun j => (i, j)

/-- `assign_fuzzy()` (lines 386–412): fold the per-pair min-cut over all
pairs; `none` when some `compute_flow` ran out of fuel. -/
def assignFuzzyAll (num OFFSET FUZZY nf : ℕ) (fids : List ℕ)
    (gNbrs : ℕ → List ℕ) (nbrsW : ℕ → List (ℕ × ℚ)) (avg : ℚ) (fuel : ℕ) :
    List (ℕ × ℕ) → (ℕ → ℕ) → Option (ℕ → ℕ)
  | [], labels => some labels
  | pr :: rest, labels =>
    match assignFuzzyStep num OFFSET FUZZY nf fids gNbrs nbrsW avg fuel labels pr with
    | none => none
    | some l2 => assignFuzzyAll num OFFSET FUZZY nf fids gNbrs nbrsW avg fuel rest l2

theorem uniquesOf_two (reps : List ℕ) (h : reps.length = 2) :
    uniquesOf reps = [0] ∨ uniquesOf reps = [0, 1] := by
  match reps, h with
  | [a, b], _ =>
    rw [uniquesOf_pair]
    by_cases hab : b = a
    · left; rw [if_pos hab]
    · right; rw [if_neg hab]

theorem assignLabel_single (num OFFSET FUZZY : ℕ) (pz : ℕ → ℕ → ℚ) (fid : ℕ) :
    assignLabel num OFFSET FUZZY [0] pz fid = OFFSET := by
  simp [assignLabel]

theorem top2Slots_pair (key : ℕ → ℚ) :
    top2Slots [0, 1] key = if key 1 > key 0 then ((1 : ℕ), (0 : ℕ)) else (0, 1) := by
  by_cases hk : key 1 > key 0 <;>
    simp [top2Slots, argmaxIdxList, hk, List.range_succ, List.filter]

theorem assignLabel_pair (num OFFSET FUZZY : ℕ) (pz : ℕ → ℕ → ℚ) (fid : ℕ) :
    assignLabel num OFFSET FUZZY [0, 1] pz fid = OFFSET ∨
    assignLabel num OFFSET FUZZY [0, 1] pz fid = OFFSET + 1 ∨
    assignLabel num OFFSET FUZZY [0, 1] pz fid = FUZZY + 1 * num + 0 ∨
    assignLabel num OFFSET FUZZY [0, 1] pz fid = FUZZY + 0 * num + 1 := by
  unfold assignLabel
  rw [if_pos (by decide : 1 < ([0, 1] : List ℕ).length)]
  simp only [top2Slots_pair]
  by_cases hk : pz (([0, 1] : List ℕ).getD 1 0) fid > pz (([0, 1] : List ℕ).getD 0 0) fid
  · rw [if_pos hk]
    by_cases hgap : pz 1 fid - pz 0 fid > assignEps num
    · right; left
      simp [hgap]
    · right; right; left
      simp [hgap]
  · rw [if_neg hk]
    by_cases hgap : pz 0 fid - pz 1 fid > assignEps num
    · left
      simp [hgap]
    · right; right; right
      simp [hgap]

theorem applyAssign_succ (m : ℕ) (fids : List ℕ) (ll l0 : ℕ → ℕ) :
    applyAssign (m + 1) fids ll l0 =
      Function.update (applyAssign m fids ll l0) (fids.getD m 0) (ll m) := by
  unfold applyAssign
  rw [List.range_succ, List.foldl_append]
  rfl

theorem applyAssign_mem (n : ℕ) (fids : List ℕ) (ll l0 : ℕ → ℕ) (g : ℕ)
    (hg : ∃ idx, idx < n ∧ fids.getD idx 0 = g) :
    ∃ idx, idx < n ∧ fids.getD idx 0 = g ∧ applyAssign n fids ll l0 g = ll idx := by
  induction n with
  | zero =>
    obtain ⟨idx, h, _⟩ := hg
    omega
  | succ m ih =>
    by_cases he : fids.getD m 0 = g
    · refine ⟨m, by omega, he, ?_⟩
      rw [applyAssign_succ, he, Function.update_same]
    · obtain ⟨idx, hidx, hidxg⟩ := hg
      have hidx2 : idx < m := by
        rcases Nat.lt_succ_iff_lt_or_eq.mp hidx with h | h
        · exact h
        · subst h; exact absurd hidxg he
      obtain ⟨idx2, h1, h2, h3⟩ := ih ⟨idx, hidx2, hidxg⟩
      refine ⟨idx2, by omega, h2, ?_⟩
      rw [applyAssign_succ, Function.update_noteq (fun hh => he hh.symm), h3]

theorem computeFlow_types (nf : ℕ) (nbrs : ℕ → List (ℕ × ℚ)) (avg : ℚ)
    (ft0 : ℕ → ℕ) (fuel : ℕ) (r : (ℕ → ℕ) × ℚ × List ℕ × List (List FlowEdge))
    (h : computeFlow nf nbrs avg ft0 fuel = some r) :
    ∀ x, x < nf → (r.1 x = 1 ∨ r.1 x = 2 ∨ (r.1 x = ft0 x ∧ ft0 x ≠ 3)) := by
  intro x hx
  have := computeFlowLoop_types nf (fun i => if i < nf then ft0 i else 4) fuel
    (buildEdges nf nbrs avg fun i => if i < nf then ft0 i else 4) 0 r h x
  rcases this with h1 | h2 | ⟨h3, h4⟩
  · exact Or.inl h1
  · exact Or.inr (Or.inl h2)
  · refine Or.inr (Or.inr ⟨?_, ?_⟩)
    · rw [h3, if_pos hx]
    · intro hc
      exact h4 ⟨hx, by rw [if_pos hx]; exact hc⟩

/-- C3: after the final `assign()` of a completed `seg()` call on a
segment with `num = 2` (so `uniques` is `[0]` or `[0, 1]`, by
`uniquesOf_two`) followed by a terminating `assign_fuzzy()`, every face
of the segment carries a crisp label in `[OFFSET, OFFSET + 2)`; no face
retains a fuzzy label `≥ FUZZY = OFFSET + 2`. -/
theorem seg_final_labels_crisp
    (n nf OFFSET : ℕ) (fids : List ℕ) (uniques : List ℕ)
    (prob : ℕ → ℕ → ℚ) (labL0 labG0 : ℕ → ℕ)
    (gNbrs : ℕ → List ℕ) (nbrsW : ℕ → List (ℕ × ℚ)) (avg : ℚ) (fuel : ℕ)
    (labels2 : ℕ → ℕ)
    (hu : uniques = [0] ∨ uniques = [0, 1])
    (hlen : fids.length = n)
    (hfb : ∀ g ∈ fids, g < nf)
    (hflow : assignFuzzyAll 2 OFFSET (OFFSET + 2) nf fids gNbrs nbrsW avg fuel
      (uniquePairs uniques)
      (applyAssign n fids
        (assignAll n 2 OFFSET (OFFSET + 2) uniques prob labL0).1 labG0) = some labels2) :
    ∀ g ∈ fids, OFFSET ≤ labels2 g ∧ labels2 g < OFFSET + 2 := by
  intro g hg
  set ll := (assignAll n 2 OFFSET (OFFSET + 2) uniques prob labL0).1 with hll
  set labels1 := applyAssign n fids ll labG0 with hlab1
  have hex : ∃ idx, idx < n ∧ fids.getD idx 0 = g := by
    obtain ⟨i, hi, hgi⟩ := List.mem_iff_getElem.mp hg
    exact ⟨i, by omega, by rw [List.getD_eq_getElem fids 0 hi]; exact hgi⟩
  obtain ⟨idx, hidx, hgetd, hval⟩ := applyAssign_mem n fids ll labG0 g hex
  rw [← hlab1] at hval
  have hllidx : ll idx = assignLabel 2 OFFSET (OFFSET + 2) uniques
      (probZero 2 uniques prob) idx := by
    rw [hll]
    unfold assignAll
    simp only [hidx, if_pos]
  rcases hu with hu1 | hu2
  · subst hu1
    have hpairs : uniquePairs [0] = [] := rfl
    rw [hpairs] at hflow
    have hl2 : labels2 = labels1 := by
      have : some labels1 = some labels2 := hflow
      exact (Option.some_inj.mp this).symm
    rw [hl2, hval, hllidx, assignLabel_single]
    omega
  · subst hu2
    have hpairs : uniquePairs [0, 1] = [(0, 1)] := rfl
    rw [hpairs] at hflow
    have hlab1g : labels1 g = OFFSET ∨ labels1 g = OFFSET + 1 ∨
        labels1 g = (OFFSET + 2) + 1 ∨ labels1 g = (OFFSET + 2) + 2 := by
      rw [hval, hllidx]
      rcases assignLabel_pair 2 OFFSET (OFFSET + 2) (probZero 2 [0, 1] prob) idx with
        h | h | h | h
      · exact Or.inl h
      · exact Or.inr (Or.inl h)
      · right; right; right
        rw [h]
      · right; right; left
        rw [h]
    unfold assignFuzzyAll at hflow
    rcases hstep : assignFuzzyStep 2 OFFSET (OFFSET + 2) nf fids gNbrs nbrsW avg fuel
        labels1 (0, 1) with _ | l2
    · rw [hstep] at hflow
      exact absurd hflow (by simp)
    · rw [hstep] at hflow
      simp only [assignFuzzyAll] at hflow
      have hl2 : l2 = labels2 := Option.some_inj.mp hflow
      unfold assignFuzzyStep at hstep
      dsimp only at hstep
      rcases hcf : computeFlow nf nbrsW avg
          (classifyTypes 2 OFFSET (OFFSET + 2) 0 1 fids labels1 gNbrs) fuel with _ | r
      · rw [hcf] at hstep
        exact absurd hstep (by simp)
      · rw [hcf] at hstep
        simp only at hstep
        have hl2def := Option.some_inj.mp hstep
        rw [← hl2, ← hl2def]
        dsimp only
        by_cases hb1 : g ∈ fids ∧ r.1 g = 1
        · rw [if_pos hb1]
          omega
        · rw [if_neg hb1]
          by_cases hb2 : g ∈ fids ∧ r.1 g = 2
          · rw [if_pos hb2]
            omega
          · rw [if_neg hb2]
            rcases hlab1g with h | h | h | h
            · omega
            · omega
            all_goals {
              exfalso
              have hcond : g ∈ fids ∧ isFuzzyFor 2 (OFFSET + 2) 0 1 (labels1 g) = true := by
                refine ⟨hg, ?_⟩
                unfold isFuzzyFor
                simp only [Bool.or_eq_true, decide_eq_true_eq]
                omega
              have hfz : classifyTypes 2 OFFSET (OFFSET + 2) 0 1 fids labels1 gNbrs g = 3 := by
                unfold classifyTypes
                rw [if_pos hcond]
              have htr := computeFlow_types nf nbrsW avg _ fuel r hcf g (hfb g hg)
              rcases htr with h1 | h2 | ⟨_, h4⟩
              · exact hb1 ⟨hg, h1⟩
              · exact hb2 ⟨hg, h2⟩
              · exact h4 hfz
            }

/-- C3 (witness): a one-face segment (global face 5 of a six-face model)
with a singleton `uniques`; the final labels are crisp in `[0, 2)`. -/
theorem seg_final_labels_crisp_witness :
    ([5] : List ℕ).length = 1 ∧ (∀ g ∈ ([5] : List ℕ), g < 6) ∧
    (∀ g ∈ ([5] : List ℕ),
      0 ≤ (applyAssign 1 [5] (assignAll 1 2 0 2 [0] (fun _ _ => 0) fun _ => 0).1
          fun _ => 0) g ∧
      (applyAssign 1 [5] (assignAll 1 2 0 2 [0] (fun _ _ => 0) fun _ => 0).1
          fun _ => 0) g < 2) := by
  refine ⟨rfl, by decide, ?_⟩
  exact seg_final_labels_crisp 1 6 0 [5] [0] (fun _ _ => 0) (fun _ => 0) (fun _ => 0)
    (fun _ => []) (fun _ => []) 1 0 _ (Or.inl rfl) rfl (by decide) rfl

/-! ## C4 — max-flow / min-cut at the termination of `compute_flow`

The development below proves, for the embedded `compute_flow`, that the
accumulated `sum_flow` equals the capacity of the cut from the final BFS
reachable set (`q_history`, the nodes made role 1) to its complement —
restricted to edges whose head has a nonzero role.  The claim as stated
(all edges to the complement) is refuted by a counterexample: edges into
role-0 faces carry capacity but never flow. -/

/-- Total flow out of node `x`. -/
def outFlowSum (es : List (List FlowEdge)) (x : ℕ) : ℚ :=
  ((es.getD x []).map (fun e => e.flow)).sum

/-- Total flow on the arcs `x → y`. -/
def flowBetween (es : List (List FlowEdge)) (x y : ℕ) : ℚ :=
  (((es.getD x []).filter fun e => e.dst = y).map (fun e => e.flow)).sum

/-- Number of arcs `x → y`. -/
def numArcs (es : List (List FlowEdge)) (x y : ℕ) : ℕ :=
  ((es.getD x []).filter fun e => e.dst = y).length

theorem addFlowOnArcs_length (es : List (List FlowEdge)) (u v : ℕ) (d : ℚ) :
    (addFlowOnArcs es u v d).length = es.length := by
  unfold addFlowOnArcs
  exact List.length_set es u _

theorem addFlowOnArcs_getD (es : List (List FlowEdge)) (u v : ℕ) (d : ℚ) (x : ℕ) :
    (addFlowOnArcs es u v d).getD x [] =
      if x = u then
        (es.getD u []).map fun e =>
          if e.dst = v then { e with flow := e.flow + d } else e
      else es.getD x [] := by
  unfold addFlowOnArcs
  by_cases hx : x = u
  · subst hx
    rw [if_pos rfl]
    by_cases hlt : x < es.length
    · rw [List.getD_eq_getElem?_getD, List.getElem?_set_self, Option.getD_some]
      exact hlt
    · rw [List.set_eq_of_length_le (by omega), List.getD_eq_getElem?_getD,
        List.getElem?_eq_none (by omega), Option.getD_none]
      rfl
  · rw [if_neg hx, List.getD_eq_getElem?_getD, List.getElem?_set_ne (fun hh => hx hh.symm),
      ← List.getD_eq_getElem?_getD]

theorem augmentAlong_length (es : List (List FlowEdge)) (d : ℚ) (pairs : List (ℕ × ℕ)) :
    (augmentAlong es d pairs).length = es.length := by
  induction pairs generalizing es with
  | nil => rfl
  | cons pr rest ih =>
    show (augmentAlong (addFlowOnArcs (addFlowOnArcs es pr.1 pr.2 d) pr.2 pr.1 (-d)) d rest).length = _
    rw [ih, addFlowOnArcs_length, addFlowOnArcs_length]

theorem flowEdge_withFlow_eq (e : FlowEdge) (A B : ℚ) (h : A = B) :
    ({ e with flow := A } : FlowEdge) = { e with flow := B } := by
  rw [h]

theorem count_cons_pair (a b : ℕ × ℕ) (l : List (ℕ × ℕ)) :
    ((b :: l).count a : ℚ) = (l.count a : ℚ) + (if a = b then 1 else 0) := by
  rw [List.count_cons]
  by_cases h : a = b
  · simp [h]
  · have h2 : ¬ b = a := fun hh => h hh.symm
    simp [h, h2]

theorem augmentAlong_getD (es : List (List FlowEdge)) (d : ℚ) (pairs : List (ℕ × ℕ)) (x : ℕ) :
    (augmentAlong es d pairs).getD x [] = (es.getD x []).map fun e =>
      { e with flow := e.flow + d * (pairs.count (x, e.dst) : ℚ)
          - d * (pairs.count (e.dst, x) : ℚ) } := by
  induction pairs generalizing es with
  | nil =>
    show es.getD x [] = _
    have hid : ∀ e ∈ es.getD x [],
        ({ e with flow := e.flow + d * ((([] : List (ℕ × ℕ)).count (x, e.dst) : ℕ) : ℚ)
            - d * ((([] : List (ℕ × ℕ)).count (e.dst, x) : ℕ) : ℚ) } : FlowEdge) = e := by
      intro e _
      have h : e.flow + d * ((([] : List (ℕ × ℕ)).count (x, e.dst) : ℕ) : ℚ)
          - d * ((([] : List (ℕ × ℕ)).count (e.dst, x) : ℕ) : ℚ) = e.flow := by
        simp
      exact (flowEdge_withFlow_eq e _ _ h).trans rfl
    exact ((List.map_congr_left hid).trans (List.map_id _)).symm
  | cons pr rest ih =>
    show (augmentAlong (addFlowOnArcs (addFlowOnArcs es pr.1 pr.2 d) pr.2 pr.1 (-d)) d rest).getD x [] = _
    rw [ih, addFlowOnArcs_getD]
    by_cases hxv : x = pr.2
    · rw [if_pos hxv, addFlowOnArcs_getD]
      by_cases huv : pr.2 = pr.1
      · rw [if_pos huv, List.map_map, List.map_map]
        rw [show es.getD pr.1 [] = es.getD x [] by rw [hxv.trans huv]]
        apply List.map_congr_left
        intro e _
        simp only [Function.comp_apply]
        by_cases hd2 : e.dst = pr.2
        · rw [if_pos hd2]
          dsimp only
          rw [if_pos (hd2.trans huv)]
          dsimp only
          apply flowEdge_withFlow_eq
          rw [count_cons_pair, count_cons_pair,
            if_pos (show ((x : ℕ), e.dst) = pr by
              simp only [Prod.ext_iff]
              constructor
              · omega
              · omega),
            if_pos (show ((e.dst : ℕ), x) = pr by
              simp only [Prod.ext_iff]
              constructor
              · omega
              · omega)]
          push_cast
          ring
        · rw [if_neg hd2]
          rw [if_neg (fun hc => hd2 (hc.trans huv.symm))]
          apply flowEdge_withFlow_eq
          rw [count_cons_pair, count_cons_pair,
            if_neg (show ¬ ((x : ℕ), e.dst) = pr by simp only [Prod.ext_iff]; omega),
            if_neg (show ¬ ((e.dst : ℕ), x) = pr by simp only [Prod.ext_iff]; omega)]
          push_cast
          ring
      · rw [if_neg huv, List.map_map]
        rw [show es.getD pr.2 [] = es.getD x [] by rw [hxv]]
        apply List.map_congr_left
        intro e _
        simp only [Function.comp_apply]
        by_cases hd1 : e.dst = pr.1
        · rw [if_pos hd1]
          dsimp only
          apply flowEdge_withFlow_eq
          rw [count_cons_pair, count_cons_pair,
            if_neg (show ¬ ((x : ℕ), e.dst) = pr by simp only [Prod.ext_iff]; omega),
            if_pos (show ((e.dst : ℕ), x) = pr by
              simp only [Prod.ext_iff]
              constructor
              · omega
              · omega)]
          push_cast
          ring
        · rw [if_neg hd1]
          apply flowEdge_withFlow_eq
          rw [count_cons_pair, count_cons_pair,
            if_neg (show ¬ ((x : ℕ), e.dst) = pr by simp only [Prod.ext_iff]; omega),
            if_neg (show ¬ ((e.dst : ℕ), x) = pr by simp only [Prod.ext_iff]; omega)]
          push_cast
          ring
    · rw [if_neg hxv, addFlowOnArcs_getD]
      by_cases hxu : x = pr.1
      · rw [if_pos hxu, List.map_map]
        rw [show es.getD pr.1 [] = es.getD x [] by rw [hxu]]
        apply List.map_congr_left
        intro e _
        simp only [Function.comp_apply]
        by_cases hd2 : e.dst = pr.2
        · rw [if_pos hd2]
          dsimp only
          apply flowEdge_withFlow_eq
          rw [count_cons_pair, count_cons_pair,
            if_pos (show ((x : ℕ), e.dst) = pr by
              simp only [Prod.ext_iff]
              constructor
              · omega
              · omega),
            if_neg (show ¬ ((e.dst : ℕ), x) = pr by simp only [Prod.ext_iff]; omega)]
          push_cast
          ring
        · rw [if_neg hd2]
          apply flowEdge_withFlow_eq
          rw [count_cons_pair, count_cons_pair,
            if_neg (show ¬ ((x : ℕ), e.dst) = pr by simp only [Prod.ext_iff]; omega),
            if_neg (show ¬ ((e.dst : ℕ), x) = pr by simp only [Prod.ext_iff]; omega)]
          push_cast
          ring
      · rw [if_neg hxu]
        apply List.map_congr_left
        intro e _
        apply flowEdge_withFlow_eq
        rw [count_cons_pair, count_cons_pair,
          if_neg (show ¬ ((x : ℕ), e.dst) = pr by simp only [Prod.ext_iff]; omega),
          if_neg (show ¬ ((e.dst : ℕ), x) = pr by simp only [Prod.ext_iff]; omega)]
        push_cast
        ring

theorem sum_map_flow_add_const (l : List FlowEdge) (D : ℚ) :
    (l.map fun e => e.flow + D).sum = (l.map fun e => e.flow).sum + l.length * D := by
  induction l with
  | nil => simp
  | cons e es ih =>
    simp only [List.map_cons, List.sum_cons, ih, List.length_cons]
    push_cast
    ring

theorem filter_dst_augment (es : List (List FlowEdge)) (d : ℚ) (pairs : List (ℕ × ℕ))
    (x y : ℕ) :
    ((augmentAlong es d pairs).getD x []).filter (fun e => e.dst = y) =
      ((es.getD x []).filter fun e => e.dst = y).map fun e =>
        { e with flow := e.flow + d * (pairs.count (x, e.dst) : ℚ)
            - d * (pairs.count (e.dst, x) : ℚ) } := by
  rw [augmentAlong_getD, List.filter_map]
  rfl

theorem numArcs_augment (es : List (List FlowEdge)) (d : ℚ) (pairs : List (ℕ × ℕ))
    (x y : ℕ) :
    numArcs (augmentAlong es d pairs) x y = numArcs es x y := by
  unfold numArcs
  rw [filter_dst_augment, List.length_map]

theorem flowBetween_augment (es : List (List FlowEdge)) (d : ℚ) (pairs : List (ℕ × ℕ))
    (x y : ℕ) :
    flowBetween (augmentAlong es d pairs) x y = flowBetween es x y +
      (numArcs es x y : ℚ) *
        (d * (pairs.count (x, y) : ℚ) - d * (pairs.count (y, x) : ℚ)) := by
  unfold flowBetween numArcs
  rw [filter_dst_augment, List.map_map]
  have hcg : ∀ e ∈ (es.getD x []).filter (fun e => e.dst = y),
      ((fun e => e.flow) ∘ fun e =>
        ({ e with flow := e.flow + d * (pairs.count (x, e.dst) : ℚ)
            - d * (pairs.count (e.dst, x) : ℚ) } : FlowEdge)) e =
      e.flow + (d * (pairs.count (x, y) : ℚ) - d * (pairs.count (y, x) : ℚ)) := by
    intro e he
    have hd : e.dst = y := by
      have := List.of_mem_filter he
      exact of_decide_eq_true this
    simp only [Function.comp_apply, hd]
    ring
  rw [List.map_congr_left hcg, sum_map_flow_add_const]

theorem sum_ite_pair_filter (arcs : List FlowEdge) (pr : ℕ × ℕ) (x : ℕ) :
    (arcs.map fun e => if ((x : ℕ), e.dst) = pr then (1 : ℚ) else 0).sum =
      if pr.1 = x then ((arcs.filter fun e => e.dst = pr.2).length : ℚ) else 0 := by
  induction arcs with
  | nil => simp
  | cons e rest ih =>
    simp only [List.map_cons, List.sum_cons, ih]
    by_cases hx : pr.1 = x
    · rw [if_pos hx, if_pos hx]
      by_cases hd : e.dst = pr.2
      · rw [if_pos (by simp only [Prod.ext_iff]; omega),
          List.filter_cons_of_pos (by simpa using hd), List.length_cons]
        push_cast
        ring
      · rw [if_neg (by simp only [Prod.ext_iff]; omega),
          List.filter_cons_of_neg (by simpa using hd)]
        ring
    · rw [if_neg hx, if_neg hx, if_neg (by simp only [Prod.ext_iff]; omega)]
      ring

theorem sum_ite_pair_filter_snd (arcs : List FlowEdge) (pr : ℕ × ℕ) (x : ℕ) :
    (arcs.map fun e => if ((e.dst : ℕ), x) = pr then (1 : ℚ) else 0).sum =
      if pr.2 = x then ((arcs.filter fun e => e.dst = pr.1).length : ℚ) else 0 := by
  induction arcs with
  | nil => simp
  | cons e rest ih =>
    simp only [List.map_cons, List.sum_cons, ih]
    by_cases hx : pr.2 = x
    · rw [if_pos hx, if_pos hx]
      by_cases hd : e.dst = pr.1
      · rw [if_pos (by simp only [Prod.ext_iff]; omega),
          List.filter_cons_of_pos (by simpa using hd), List.length_cons]
        push_cast
        ring
      · rw [if_neg (by simp only [Prod.ext_iff]; omega),
          List.filter_cons_of_neg (by simpa using hd)]
        ring
    · rw [if_neg hx, if_neg hx, if_neg (by simp only [Prod.ext_iff]; omega)]
      ring

theorem sum_map_add_split {α : Type} (l : List α) (f g : α → ℚ) :
    (l.map fun e => f e + g e).sum = (l.map f).sum + (l.map g).sum := by
  induction l with
  | nil => simp
  | cons a rest ih =>
    simp only [List.map_cons, List.sum_cons, ih]
    ring

theorem sum_count_exchange_fst (arcs : List FlowEdge) (pairs : List (ℕ × ℕ)) (x : ℕ) :
    (arcs.map fun e => ((pairs.count ((x : ℕ), e.dst) : ℕ) : ℚ)).sum =
      (pairs.map fun pr =>
        if pr.1 = x then ((arcs.filter fun e => e.dst = pr.2).length : ℚ) else 0).sum := by
  induction pairs with
  | nil => simp
  | cons pr rest ih =>
    simp only [List.map_cons, List.sum_cons]
    have hsplit : (arcs.map fun e => (((pr :: rest).count ((x : ℕ), e.dst) : ℕ) : ℚ)).sum =
        (arcs.map fun e => if ((x : ℕ), e.dst) = pr then (1 : ℚ) else 0).sum +
        (arcs.map fun e => ((rest.count ((x : ℕ), e.dst) : ℕ) : ℚ)).sum := by
      rw [← sum_map_add_split]
      apply congrArg List.sum
      apply List.map_congr_left
      intro e _
      rw [count_cons_pair]
      ring
    rw [hsplit, sum_ite_pair_filter, ih]

theorem sum_count_exchange_snd (arcs : List FlowEdge) (pairs : List (ℕ × ℕ)) (x : ℕ) :
    (arcs.map fun e => ((pairs.count ((e.dst : ℕ), x) : ℕ) : ℚ)).sum =
      (pairs.map fun pr =>
        if pr.2 = x then ((arcs.filter fun e => e.dst = pr.1).length : ℚ) else 0).sum := by
  induction pairs with
  | nil => simp
  | cons pr rest ih =>
    simp only [List.map_cons, List.sum_cons]
    have hsplit : (arcs.map fun e => (((pr :: rest).count ((e.dst : ℕ), x) : ℕ) : ℚ)).sum =
        (arcs.map fun e => if ((e.dst : ℕ), x) = pr then (1 : ℚ) else 0).sum +
        (arcs.map fun e => ((rest.count ((e.dst : ℕ), x) : ℕ) : ℚ)).sum := by
      rw [← sum_map_add_split]
      apply congrArg List.sum
      apply List.map_congr_left
      intro e _
      rw [count_cons_pair]
      ring
    rw [hsplit, sum_ite_pair_filter_snd, ih]

theorem outFlowSum_augment (es : List (List FlowEdge)) (d : ℚ) (pairs : List (ℕ × ℕ))
    (x : ℕ) :
    outFlowSum (augmentAlong es d pairs) x = outFlowSum es x +
      d * (pairs.map fun pr =>
        if pr.1 = x then ((numArcs es x pr.2 : ℕ) : ℚ) else 0).sum -
      d * (pairs.map fun pr =>
        if pr.2 = x then ((numArcs es x pr.1 : ℕ) : ℚ) else 0).sum := by
  unfold outFlowSum
  rw [augmentAlong_getD, List.map_map]
  have hcg : (es.getD x []).map ((fun e => e.flow) ∘ fun e =>
      ({ e with flow := e.flow + d * (pairs.count ((x : ℕ), e.dst) : ℚ)
          - d * (pairs.count ((e.dst : ℕ), x) : ℚ) } : FlowEdge)) =
    (es.getD x []).map (fun e => e.flow + (d * (pairs.count ((x : ℕ), e.dst) : ℚ)
        - d * (pairs.count ((e.dst : ℕ), x) : ℚ))) := by
    apply List.map_congr_left
    intro e _
    simp only [Function.comp_apply]
    ring
  rw [hcg, sum_map_add_split]
  have h2 : ((es.getD x []).map fun e => d * ((pairs.count ((x : ℕ), e.dst) : ℕ) : ℚ)
      - d * ((pairs.count ((e.dst : ℕ), x) : ℕ) : ℚ)).sum =
    d * ((es.getD x []).map fun e => ((pairs.count ((x : ℕ), e.dst) : ℕ) : ℚ)).sum -
    d * ((es.getD x []).map fun e => ((pairs.count ((e.dst : ℕ), x) : ℕ) : ℚ)).sum := by
    induction es.getD x [] with
    | nil => simp
    | cons e rest ih =>
      simp only [List.map_cons, List.sum_cons, ih]
      ring
  rw [h2, sum_count_exchange_fst, sum_count_exchange_snd]
  unfold numArcs
  push_cast
  ring

theorem augment_shape (es : List (List FlowEdge)) (d : ℚ) (pairs : List (ℕ × ℕ)) (x : ℕ) :
    ((augmentAlong es d pairs).getD x []).map (fun e => (e.fro, e.dst, e.cap)) =
      (es.getD x []).map fun e => (e.fro, e.dst, e.cap) := by
  rw [augmentAlong_getD, List.map_map]
  rfl

theorem capGtFlow_residual_pos {c : Option ℚ} {fl : ℚ} (h : capGtFlow c fl = true) :
    0 < residual c fl := by
  cases c with
  | none => exact WithTop.coe_lt_top 0
  | some cv =>
    have : fl < cv := of_decide_eq_true h
    show ((0 : ℚ) : WithTop ℚ) < ((cv - fl : ℚ) : WithTop ℚ)
    rw [WithTop.coe_lt_coe]
    linarith

theorem capGtFlow_false_ge {c : ℚ} {fl : ℚ} (h : capGtFlow (some c) fl = false) :
    c ≤ fl := by
  have := of_decide_eq_false h
  linarith [not_lt.mp this]

theorem bfsEdgeFold_spec (ft : ℕ → ℕ) (cur : ℕ) (arcs : List FlowEdge) (st : BfsState)
    (hcur : st.a cur ≠ 0) :
    ∃ new : List ℕ,
      (bfsEdgeFold ft cur arcs st).q = st.q ++ new ∧
      (bfsEdgeFold ft cur arcs st).hist = st.hist ++ new ∧
      new.Nodup ∧
      (∀ x, st.a x ≠ 0 →
        (bfsEdgeFold ft cur arcs st).a x = st.a x ∧
        (bfsEdgeFold ft cur arcs st).p x = st.p x) ∧
      (∀ x, x ∈ new ↔ st.a x = 0 ∧ (bfsEdgeFold ft cur arcs st).a x ≠ 0) ∧
      (∀ x ∈ new, ft x ≠ 0 ∧ (bfsEdgeFold ft cur arcs st).p x = some cur ∧
        ∃ e ∈ arcs, e.dst = x ∧ capGtFlow e.cap e.flow = true ∧
          (bfsEdgeFold ft cur arcs st).a x = min (st.a cur) (residual e.cap e.flow)) ∧
      (∀ e ∈ arcs, ft e.dst ≠ 0 →
        (bfsEdgeFold ft cur arcs st).a e.dst ≠ 0 ∨ capGtFlow e.cap e.flow = false) := by
  induction arcs generalizing st with
  | nil =>
    refine ⟨[], by simp [bfsEdgeFold], by simp [bfsEdgeFold], List.nodup_nil, ?_, ?_, ?_, ?_⟩
    · intro x _
      exact ⟨rfl, rfl⟩
    · intro x
      simp only [List.not_mem_nil, false_iff]
      intro ⟨h1, h2⟩
      exact h2 h1
    · intro x hx
      cases hx
    · intro e he
      cases he
  | cons e rest ih =>
    by_cases hcond : ft e.dst ≠ 0 ∧ st.a e.dst = 0 ∧ capGtFlow e.cap e.flow = true
    · have hdstcur : e.dst ≠ cur := by
        intro hc
        rw [hc] at hcond
        exact hcur hcond.2.1
      have hminne : min (st.a cur) (residual e.cap e.flow) ≠ 0 := by
        rcases min_cases (st.a cur) (residual e.cap e.flow) with ⟨heq, _⟩ | ⟨heq, _⟩
        · rw [heq]; exact hcur
        · rw [heq]; exact (capGtFlow_residual_pos hcond.2.2).ne'
      have hstep : bfsEdgeFold ft cur (e :: rest) st =
          bfsEdgeFold ft cur rest
            ⟨Function.update st.a e.dst (min (st.a cur) (residual e.cap e.flow)),
             Function.update st.p e.dst (some cur),
             st.q ++ [e.dst], st.hist ++ [e.dst]⟩ := by
        show (e :: rest).foldl _ st = _
        rw [List.foldl_cons]
        congr 1
        show (if ft e.dst ≠ 0 ∧ st.a e.dst = 0 ∧ capGtFlow e.cap e.flow then _ else st) = _
        rw [if_pos hcond]
      have hcur1 : (Function.update st.a e.dst
          (min (st.a cur) (residual e.cap e.flow))) cur ≠ 0 := by
        rw [Function.update_noteq (Ne.symm hdstcur)]
        exact hcur
      obtain ⟨new1, h1, h2, h3, h4, h5, h6, h7⟩ :=
        ih ⟨Function.update st.a e.dst (min (st.a cur) (residual e.cap e.flow)),
            Function.update st.p e.dst (some cur),
            st.q ++ [e.dst], st.hist ++ [e.dst]⟩ hcur1
      dsimp only at h1 h2 h4 h5 h6 h7
      have hadst : st.a e.dst = 0 := hcond.2.1
      have ha1dst : (Function.update st.a e.dst
          (min (st.a cur) (residual e.cap e.flow))) e.dst ≠ 0 := by
        rw [Function.update_same]
        exact hminne
      have hRadst : (bfsEdgeFold ft cur rest
          ⟨Function.update st.a e.dst (min (st.a cur) (residual e.cap e.flow)),
           Function.update st.p e.dst (some cur),
           st.q ++ [e.dst], st.hist ++ [e.dst]⟩).a e.dst =
          min (st.a cur) (residual e.cap e.flow) := by
        rw [(h4 e.dst ha1dst).1, Function.update_same]
      refine ⟨e.dst :: new1, ?_, ?_, ?_, ?_, ?_, ?_, ?_⟩
      · rw [hstep, h1]
        simp
      · rw [hstep, h2]
        simp
      · refine List.nodup_cons.mpr ⟨?_, h3⟩
        intro hmem
        have := ((h5 e.dst).mp hmem).1
        rw [Function.update_same] at this
        exact hminne this
      · intro x hx
        have hxne : x ≠ e.dst := by
          intro hc
          rw [hc] at hx
          exact hx hadst
        have hx1 : (Function.update st.a e.dst
            (min (st.a cur) (residual e.cap e.flow))) x ≠ 0 := by
          rw [Function.update_noteq hxne]
          exact hx
        obtain ⟨ha, hp⟩ := h4 x hx1
        rw [hstep]
        constructor
        · rw [ha, Function.update_noteq hxne]
        · rw [hp, Function.update_noteq hxne]
      · intro x
        rw [hstep]
        constructor
        · intro hmem
          rcases List.mem_cons.mp hmem with hmem | hmem
          · subst hmem
            exact ⟨hadst, by rw [hRadst]; exact hminne⟩
          · obtain ⟨hz, hnz⟩ := (h5 x).mp hmem
            have hxne : x ≠ e.dst := by
              intro hc
              rw [hc, Function.update_same] at hz
              exact hminne hz
            rw [Function.update_noteq hxne] at hz
            exact ⟨hz, hnz⟩
        · intro ⟨hz, hnz⟩
          by_cases hxe : x = e.dst
          · exact hxe ▸ List.mem_cons_self _ _
          · refine List.mem_cons_of_mem _ ((h5 x).mpr ⟨?_, hnz⟩)
            rw [Function.update_noteq hxe]
            exact hz
      · intro x hx
        rw [hstep]
        rcases List.mem_cons.mp hx with hx | hx
        · subst hx
          refine ⟨hcond.1, ?_, e, List.mem_cons_self _ _, rfl, hcond.2.2, hRadst⟩
          rw [(h4 e.dst ha1dst).2, Function.update_same]
        · obtain ⟨hft, hp, e2, he2, hdst, hcg, hval⟩ := h6 x hx
          rw [Function.update_noteq (Ne.symm hdstcur)] at hval
          exact ⟨hft, hp, e2, List.mem_cons_of_mem e he2, hdst, hcg, hval⟩
      · intro e2 he2 hft
        rw [hstep]
        rcases List.mem_cons.mp he2 with he2 | he2
        · subst he2
          left
          rw [hRadst]
          exact hminne
        · exact h7 e2 he2 hft
    · have hstep : bfsEdgeFold ft cur (e :: rest) st = bfsEdgeFold ft cur rest st := by
        show (e :: rest).foldl _ st = _
        rw [List.foldl_cons]
        congr 1
        show (if ft e.dst ≠ 0 ∧ st.a e.dst = 0 ∧ capGtFlow e.cap e.flow then _ else st) = st
        rw [if_neg hcond]
      rw [hstep]
      obtain ⟨new, h1, h2, h3, h4, h5, h6, h7⟩ := ih st hcur
      refine ⟨new, h1, h2, h3, h4, h5, ?_, ?_⟩
      · intro x hx
        obtain ⟨hft, hp, e2, he2, hrest⟩ := h6 x hx
        exact ⟨hft, hp, e2, List.mem_cons_of_mem e he2, hrest⟩
      · intro e2 he2
        rcases List.mem_cons.mp he2 with he2 | he2
        · subst he2
          push_neg at hcond
          by_cases hft : ft e2.dst = 0
          · intro hc
            exact absurd hft hc
          · intro _
            by_cases ha : st.a e2.dst = 0
            · right
              have := hcond hft ha
              exact Bool.eq_false_iff.mpr this
            · left
              exact (h4 e2.dst ha).1 ▸ ha
        · exact h7 e2 he2

/-- Invariant of the breadth-first search loop: `a` marks the reached
nodes (`hist` plus the start), every reached node other than the start
has a parent arc with enough residual capacity discovered earlier in the
history, and a node that has left the queue has all its arcs either
saturated or leading to reached or role-0 nodes. -/
structure BfsInv (ft : ℕ → ℕ) (es : List (List FlowEdge)) (start : ℕ)
    (st : BfsState) : Prop where
  a_start : st.a start = ⊤
  start_hist : start ∉ st.hist
  hist_nd : st.hist.Nodup
  q_nd : st.q.Nodup
  hist_reached : ∀ x ∈ st.hist, st.a x ≠ 0
  hist_ft : ∀ x ∈ st.hist, ft x ≠ 0
  q_sub : ∀ x ∈ st.q, x ∈ start :: st.hist
  reached_cover : ∀ x, st.a x ≠ 0 → x ∈ start :: st.hist
  a_pos : ∀ x, st.a x ≠ 0 → 0 < st.a x
  parent : ∀ x, st.a x ≠ 0 → x ≠ start →
    ∃ par, st.p x = some par ∧ st.a par ≠ 0 ∧
      (start :: st.hist).indexOf par < (start :: st.hist).indexOf x ∧
      ∃ e ∈ es.getD par [], e.dst = x ∧
        st.a x ≤ residual e.cap e.flow ∧ st.a x ≤ st.a par
  processed : ∀ x, st.a x ≠ 0 → x ∉ st.q →
    ∀ e ∈ es.getD x [], ft e.dst ≠ 0 →
      st.a e.dst ≠ 0 ∨ capGtFlow e.cap e.flow = false

theorem top_ne_zeroW : (⊤ : WithTop ℚ) ≠ 0 := by
  simp

theorem bfsInv_init (ft : ℕ → ℕ) (es : List (List FlowEdge)) (start : ℕ) :
    BfsInv ft es start
      ⟨Function.update (fun _ => 0) start ⊤, fun _ => none, [start], []⟩ := by
  have hax : ∀ x, (Function.update (fun _ => (0 : WithTop ℚ)) start ⊤) x ≠ 0 →
      x = start := by
    intro x hx
    by_contra hne
    rw [Function.update_noteq hne] at hx
    exact hx rfl
  refine ⟨?_, List.not_mem_nil _, List.nodup_nil,
    List.nodup_singleton _, ?_, ?_, ?_, ?_, ?_, ?_, ?_⟩
  · dsimp only
    exact Function.update_same ..
  · intro x hx
    cases hx
  · intro x hx
    cases hx
  · intro x hx
    simpa using hx
  · intro x hx
    dsimp only at hx
    simp [hax x hx]
  · intro x hx
    dsimp only at hx ⊢
    rw [hax x hx, Function.update_same]
    exact WithTop.coe_lt_top 0
  · intro x hx hne
    dsimp only at hx
    exact absurd (hax x hx) hne
  · intro x hx hq
    dsimp only at hx hq
    exact absurd (by simp [hax x hx]) hq

theorem bfs_step_inv (ft : ℕ → ℕ) (es : List (List FlowEdge)) (start cur : ℕ)
    (qrest : List ℕ) (st : BfsState) (hq : st.q = cur :: qrest)
    (hInv : BfsInv ft es start st) :
    BfsInv ft es start
      (bfsEdgeFold ft cur (es.getD cur []) ⟨st.a, st.p, qrest, st.hist⟩) := by
  have hreach : ∀ x, x ∈ start :: st.hist → st.a x ≠ 0 := by
    intro x hx
    rcases List.mem_cons.mp hx with hx | hx
    · rw [hx, hInv.a_start]
      exact top_ne_zeroW
    · exact hInv.hist_reached x hx
  have hcurq : cur ∈ st.q := by
    rw [hq]
    exact List.mem_cons_self _ _
  have hcurh : cur ∈ start :: st.hist := hInv.q_sub cur hcurq
  have hcur : st.a cur ≠ 0 := hreach cur hcurh
  obtain ⟨new, hq', hh', hnd, hstable, hiff, hnew, hproc⟩ :=
    bfsEdgeFold_spec ft cur (es.getD cur []) ⟨st.a, st.p, qrest, st.hist⟩ hcur
  dsimp only at hq' hh' hstable hiff hnew hproc
  set st2 := bfsEdgeFold ft cur (es.getD cur []) ⟨st.a, st.p, qrest, st.hist⟩ with hst2
  have hnew_zero : ∀ x ∈ new, st.a x = 0 := fun x hx => ((hiff x).mp hx).1
  have hold : ∀ x, st.a x ≠ 0 → st2.a x = st.a x ∧ st2.p x = st.p x := hstable
  have hqrest_nd : qrest.Nodup := by
    have := hInv.q_nd
    rw [hq] at this
    exact this.of_cons
  have hcons : start :: (st.hist ++ new) = (start :: st.hist) ++ new := by
    simp
  refine ⟨?_, ?_, ?_, ?_, ?_, ?_, ?_, ?_, ?_, ?_, ?_⟩
  · rw [(hold start (by rw [hInv.a_start]; exact top_ne_zeroW)).1]
    exact hInv.a_start
  · rw [hh']
    intro hmem
    rcases List.mem_append.mp hmem with hmem | hmem
    · exact hInv.start_hist hmem
    · exact top_ne_zeroW (hInv.a_start ▸ hnew_zero start hmem)
  · rw [hh']
    refine hInv.hist_nd.append hnd ?_
    intro x hx1 hx2
    exact hInv.hist_reached x hx1 (hnew_zero x hx2)
  · rw [hq']
    refine hqrest_nd.append hnd ?_
    intro x hx1 hx2
    have : x ∈ st.q := by
      rw [hq]
      exact List.mem_cons_of_mem _ hx1
    exact hreach x (hInv.q_sub x this) (hnew_zero x hx2)
  · rw [hh']
    intro x hx
    rcases List.mem_append.mp hx with hx | hx
    · rw [(hold x (hInv.hist_reached x hx)).1]
      exact hInv.hist_reached x hx
    · exact ((hiff x).mp hx).2
  · rw [hh']
    intro x hx
    rcases List.mem_append.mp hx with hx | hx
    · exact hInv.hist_ft x hx
    · exact (hnew x hx).1
  · rw [hq', hh']
    intro x hx
    rcases List.mem_append.mp hx with hx | hx
    · have : x ∈ st.q := by
        rw [hq]
        exact List.mem_cons_of_mem _ hx
      rcases List.mem_cons.mp (hInv.q_sub x this) with h | h
      · rw [h]
        exact List.mem_cons_self _ _
      · exact List.mem_cons_of_mem _ (List.mem_append.mpr (Or.inl h))
    · exact List.mem_cons_of_mem _ (List.mem_append.mpr (Or.inr hx))
  · rw [hh']
    intro x hx
    by_cases hz : st.a x = 0
    · have : x ∈ new := (hiff x).mpr ⟨hz, hx⟩
      exact List.mem_cons_of_mem _ (List.mem_append.mpr (Or.inr this))
    · rcases List.mem_cons.mp (hInv.reached_cover x hz) with h | h
      · rw [h]
        exact List.mem_cons_self _ _
      · exact List.mem_cons_of_mem _ (List.mem_append.mpr (Or.inl h))
  · intro x hx
    by_cases hz : st.a x = 0
    · have hxnew : x ∈ new := (hiff x).mpr ⟨hz, hx⟩
      obtain ⟨_, _, e, _, _, hcg, hval⟩ := hnew x hxnew
      rw [hval, lt_min_iff]
      exact ⟨hInv.a_pos cur hcur, capGtFlow_residual_pos hcg⟩
    · rw [(hold x hz).1]
      exact hInv.a_pos x hz
  · rw [hh']
    intro x hx hxs
    by_cases hz : st.a x = 0
    · have hxnew : x ∈ new := (hiff x).mpr ⟨hz, hx⟩
      obtain ⟨_, hp, e, he, hdst, _, hval⟩ := hnew x hxnew
      refine ⟨cur, hp, by rw [(hold cur hcur).1]; exact hcur, ?_, e, he, hdst, ?_, ?_⟩
      · rw [hcons, List.indexOf_append_of_mem hcurh,
          List.indexOf_append_of_not_mem, List.length_cons]
        · calc (start :: st.hist).indexOf cur < (start :: st.hist).length :=
                List.indexOf_lt_length.mpr hcurh
            _ ≤ _ := by
                rw [List.length_cons]
                omega
        · intro hmem
          exact hreach x hmem hz
      · rw [hval]
        exact min_le_right _ _
      · rw [hval, (hold cur hcur).1]
        exact min_le_left _ _
    · obtain ⟨par, hp, hpar, hrank, e, he, hdst, hres, hle⟩ :=
        hInv.parent x hz hxs
      refine ⟨par, by rw [(hold x hz).2]; exact hp,
        by rw [(hold par hpar).1]; exact hpar, ?_, e, he, hdst, ?_, ?_⟩
      · rw [hcons,
          List.indexOf_append_of_mem (hInv.reached_cover par hpar),
          List.indexOf_append_of_mem (hInv.reached_cover x hz)]
        exact hrank
      · rw [(hold x hz).1]
        exact hres
      · rw [(hold x hz).1, (hold par hpar).1]
        exact hle
  · rw [hq']
    intro x hx hxq e he hft
    by_cases hz : st.a x = 0
    · exact absurd (List.mem_append.mpr (Or.inr ((hiff x).mpr ⟨hz, hx⟩))) hxq
    · by_cases hxc : x = cur
      · subst hxc
        exact hproc e he hft
      · have hxq0 : x ∉ st.q := by
          rw [hq]
          intro hmem
          rcases List.mem_cons.mp hmem with h | h
          · exact hxc h
          · exact hxq (List.mem_append.mpr (Or.inl h))
        rcases hInv.processed x hz hxq0 e he hft with h | h
        · left
          rw [(hold e.dst h).1]
          exact h
        · right
          exact h

theorem bfsLoop_inv (ft : ℕ → ℕ) (es : List (List FlowEdge)) (start target : ℕ) :
    ∀ fuel (st0 st : BfsState), BfsInv ft es start st0 →
      bfsLoop ft es target fuel st0 = some st →
      BfsInv ft es start st ∧ (st.a target = 0 → st.q = []) := by
  intro fuel
  induction fuel with
  | zero =>
    intro st0 st _ h
    exact absurd h (by simp [bfsLoop])
  | succ m ih =>
    intro st0 st hInv h
    rw [bfsLoop] at h
    rcases hq : st0.q with _ | ⟨cur, qrest⟩
    · rw [hq] at h
      simp only at h
      obtain rfl := Option.some_inj.mp h
      exact ⟨hInv, fun _ => hq⟩
    · rw [hq] at h
      simp only at h
      have hInv2 := bfs_step_inv ft es start cur qrest st0 hq hInv
      by_cases htgt : (bfsEdgeFold ft cur (es.getD cur [])
          ⟨st0.a, st0.p, qrest, st0.hist⟩).a target ≠ 0
      · rw [if_pos htgt] at h
        obtain rfl := Option.some_inj.mp h
        exact ⟨hInv2, fun hc => absurd hc htgt⟩
      · rw [if_neg htgt] at h
        exact ih _ st hInv2 h

theorem runBFS_inv (ft : ℕ → ℕ) (es : List (List FlowEdge))
    (start target fuel : ℕ) (st : BfsState)
    (h : runBFS ft es start target fuel = some st) :
    BfsInv ft es start st ∧ (st.a target = 0 → st.q = []) :=
  bfsLoop_inv ft es start target fuel _ st (bfsInv_init ft es start) h

/-- The recovered pair list walks parents back to `start`: the first
child is the BFS target and consecutive pairs share their middle node. -/
def chainFrom (start : ℕ) : List (ℕ × ℕ) → ℕ → Prop
  | [], cur => cur = start
  | pr :: rest, cur => pr.2 = cur ∧ chainFrom start rest pr.1

theorem pathPairs_chain (p : ℕ → Option ℕ) (start : ℕ) :
    ∀ fuel cur pairs, pathPairs p start fuel cur = some pairs →
      chainFrom start pairs cur := by
  intro fuel
  induction fuel with
  | zero =>
    intro cur pairs h
    exact absurd h (by simp [pathPairs])
  | succ m ih =>
    intro cur pairs h
    rw [pathPairs] at h
    by_cases hcur : cur = start
    · rw [if_pos hcur] at h
      obtain rfl := Option.some_inj.mp h
      exact hcur
    · rw [if_neg hcur] at h
      rcases hp : p cur with _ | par
      · rw [hp] at h
        exact absurd h (by simp)
      · rw [hp] at h
        obtain ⟨rest, hrest, hpairs⟩ := Option.map_eq_some'.mp h
        rw [← hpairs]
        exact ⟨rfl, ih par rest hrest⟩

theorem chain_telescope (S : ℕ → Bool) (start : ℕ) :
    ∀ (pairs : List (ℕ × ℕ)) (cur : ℕ), chainFrom start pairs cur →
      (pairs.map fun pr =>
        (if S pr.1 then (1 : ℚ) else 0) - (if S pr.2 then (1 : ℚ) else 0)).sum =
      (if S start then (1 : ℚ) else 0) - (if S cur then (1 : ℚ) else 0) := by
  intro pairs
  induction pairs with
  | nil =>
    intro cur h
    obtain rfl : cur = start := h
    simp
  | cons pr rest ih =>
    intro cur h
    obtain ⟨h2, hc⟩ := h
    simp only [List.map_cons, List.sum_cons, ih pr.1 hc, ← h2]
    ring

theorem pathPairs_facts (ft : ℕ → ℕ) (es : List (List FlowEdge)) (start : ℕ)
    (st : BfsState) (hInv : BfsInv ft es start st) :
    ∀ fuel cur pairs, st.a cur ≠ 0 →
      pathPairs st.p start fuel cur = some pairs →
      (∀ pr ∈ pairs, st.a pr.1 ≠ 0 ∧ st.a pr.2 ≠ 0 ∧ pr.2 ≠ start ∧
        (start :: st.hist).indexOf pr.1 < (start :: st.hist).indexOf pr.2 ∧
        (start :: st.hist).indexOf pr.2 ≤ (start :: st.hist).indexOf cur ∧
        ∃ e ∈ es.getD pr.1 [], e.dst = pr.2 ∧
          st.a cur ≤ residual e.cap e.flow) ∧
      (pairs.map Prod.snd).Nodup := by
  intro fuel
  induction fuel with
  | zero =>
    intro cur pairs _ h
    exact absurd h (by simp [pathPairs])
  | succ m ih =>
    intro cur pairs hcur h
    rw [pathPairs] at h
    by_cases hstart : cur = start
    · rw [if_pos hstart] at h
      obtain rfl := Option.some_inj.mp h
      exact ⟨fun pr hpr => absurd hpr (List.not_mem_nil _), List.nodup_nil⟩
    · rw [if_neg hstart] at h
      obtain ⟨par, hp, hpar, hrank, e, he, hdst, hres, hle⟩ :=
        hInv.parent cur hcur hstart
      rw [hp] at h
      obtain ⟨rest, hrest, hpairs⟩ := Option.map_eq_some'.mp h
      obtain ⟨hfacts, hnd⟩ := ih par rest hpar hrest
      rw [← hpairs]
      constructor
      · intro pr hpr
        rcases List.mem_cons.mp hpr with hpr | hpr
        · subst hpr
          exact ⟨hpar, hcur, hstart, hrank, le_refl _, e, he, hdst, hres⟩
        · obtain ⟨h1, h2, h3, h4, h5, e2, he2, hdst2, hres2⟩ := hfacts pr hpr
          exact ⟨h1, h2, h3, h4, le_trans h5 (le_of_lt hrank), e2, he2, hdst2,
            le_trans hle hres2⟩
      · refine List.nodup_cons.mpr ⟨?_, hnd⟩
        intro hmem
        obtain ⟨pr, hpr, hsnd⟩ := List.mem_map.mp hmem
        obtain ⟨_, _, _, _, h5, _⟩ := hfacts pr hpr
        rw [hsnd] at h5
        exact absurd hrank (not_lt.mpr h5)

theorem getD_nil_of_le (es : List (List FlowEdge)) (x : ℕ) (h : es.length ≤ x) :
    es.getD x [] = [] := by
  rw [List.getD_eq_getElem?_getD, List.getElem?_eq_none h, Option.getD_none]

theorem mem_of_length_le_one {α : Type} {l : List α} (h : l.length ≤ 1)
    {a b : α} (ha : a ∈ l) (hb : b ∈ l) : a = b := by
  cases l with
  | nil => cases ha
  | cons c rest =>
    cases rest with
    | nil =>
      obtain rfl := List.mem_singleton.mp ha
      obtain rfl := List.mem_singleton.mp hb
      rfl
    | cons d rest2 => simp at h

/-- A rational read as an extended rational. -/
def toW (q : ℚ) : WithTop ℚ := (q : WithTop ℚ)

theorem coe_sum_list (l : List ℚ) :
    ((l.sum : ℚ) : WithTop ℚ) = (l.map toW).sum := by
  induction l with
  | nil => rfl
  | cons a rest ih =>
    rw [List.sum_cons, List.map_cons, List.sum_cons, WithTop.coe_add, ih]
    rfl

theorem filter_dst_map_update (l : List FlowEdge) (v : ℕ) (d : ℚ) (p : ℕ → Bool) :
    (l.map fun e => if e.dst = v then { e with flow := e.flow + d } else e).filter
      (fun e => p e.dst) =
    (l.filter fun e => p e.dst).map fun e =>
      if e.dst = v then { e with flow := e.flow + d } else e := by
  rw [List.filter_map]
  have hcg : l.filter ((fun e => p e.dst) ∘ fun e =>
      if e.dst = v then { e with flow := e.flow + d } else e) =
      l.filter fun e => p e.dst := by
    apply List.filter_congr
    intro e _
    by_cases hd : e.dst = v
    · simp [Function.comp, hd]
    · simp [Function.comp, hd]
  rw [hcg]

theorem sum_range_pick (n a : ℕ) (c : ℚ) :
    ((List.range n).map fun x => if x = a then c else 0).sum =
      if a < n then c else 0 := by
  induction n with
  | zero => simp
  | succ m ih =>
    rw [List.range_succ, List.map_append, List.sum_append, ih]
    by_cases h1 : a < m
    · rw [if_pos h1, if_pos (by omega)]
      simp only [List.map_cons, List.map_nil, List.sum_cons, List.sum_nil]
      rw [if_neg (by omega)]
      ring
    · rw [if_neg h1]
      by_cases h2 : m = a
      · rw [if_pos (by omega)]
        simp only [List.map_cons, List.map_nil, List.sum_cons, List.sum_nil]
        rw [if_pos h2]
        ring
      · rw [if_neg (by omega)]
        simp only [List.map_cons, List.map_nil, List.sum_cons, List.sum_nil]
        rw [if_neg h2]
        ring

theorem filter_not_S_dst (arcs : List FlowEdge) (S : ℕ → Bool) (y : ℕ) :
    ((arcs.filter fun e => !(S e.dst)).filter fun e => e.dst = y).length =
      if S y then 0 else (arcs.filter fun e => e.dst = y).length := by
  induction arcs with
  | nil => simp
  | cons e rest ih =>
    by_cases hd : e.dst = y
    · by_cases hs : S y
      · rw [List.filter_cons_of_neg (by simp [hd, hs]),
          List.filter_cons_of_pos (by simp [hd]), ih, if_pos hs, if_pos hs]
      · rw [List.filter_cons_of_pos (by simp [hd, hs]),
          List.filter_cons_of_pos (by simp [hd]),
          List.filter_cons_of_pos (by simp [hd]),
          List.length_cons, List.length_cons, ih, if_neg hs, if_neg hs]
    · by_cases hS : S e.dst
      · rw [List.filter_cons_of_neg (by simp [hS]),
          List.filter_cons_of_neg (by simp [hd]), ih]
      · rw [List.filter_cons_of_pos (by simp [hS]),
          List.filter_cons_of_neg (by simp [hd]),
          List.filter_cons_of_neg (by simp [hd]), ih]

theorem numArcs_addFlow (es : List (List FlowEdge)) (u v : ℕ) (d : ℚ) (x y : ℕ) :
    numArcs (addFlowOnArcs es u v d) x y = numArcs es x y := by
  unfold numArcs
  rw [addFlowOnArcs_getD]
  by_cases hx : x = u
  · subst hx
    rw [if_pos rfl, filter_dst_map_update _ _ _ (fun n => decide (n = y)),
      List.length_map]
  · rw [if_neg hx]

/-- `e.cap` read as an extended rational (`None` = `float("inf")`). -/
def capW : Option ℚ → WithTop ℚ
  | none => ⊤
  | some c => (c : WithTop ℚ)

/-- Total flow crossing from `S` to its complement. -/
def cutFlow (es : List (List FlowEdge)) (S : ℕ → Bool) : ℚ :=
  ((List.range es.length).map fun x =>
    if S x then
      (((es.getD x []).filter fun e => !(S e.dst)).map fun e => e.flow).sum
    else 0).sum

/-- Capacity of the cut from `S` to its complement over ALL edges —
the cut of the claim as stated. -/
def cutCapacityAll (es : List (List FlowEdge)) (S : ℕ → Bool) : WithTop ℚ :=
  ((List.range es.length).map fun x =>
    if S x then
      (((es.getD x []).filter fun e => !(S e.dst)).map fun e => capW e.cap).sum
    else 0).sum

/-- Capacity of the cut from `S` to its complement restricted to edges
whose head has a nonzero role — the amended cut. -/
def cutCapacityActive (es : List (List FlowEdge)) (ft : ℕ → ℕ) (S : ℕ → Bool) :
    WithTop ℚ :=
  ((List.range es.length).map fun x =>
    if S x then
      (((es.getD x []).filter fun e =>
        !(S e.dst) && decide (ft e.dst ≠ 0)).map fun e => capW e.cap).sum
    else 0).sum

/-- The reachable set of the final breadth-first search: the source plus
`q_history` (the nodes made role 1). -/
def reachSet (nf : ℕ) (hist : List ℕ) : ℕ → Bool :=
  fun x => decide (x = nf ∨ x ∈ hist)

/-- The sets against which the cut is measured: they hold the source,
miss the sink, and hold every role-1 node. -/
def goodCut (nf : ℕ) (ft : ℕ → ℕ) (S : ℕ → Bool) : Prop :=
  S nf = true ∧ S (nf + 1) = false ∧ ∀ j, ft j = 1 → S j = true

theorem cutFlow_addFlow (es : List (List FlowEdge)) (u v : ℕ) (d : ℚ)
    (S : ℕ → Bool) :
    cutFlow (addFlowOnArcs es u v d) S = cutFlow es S +
      (if S u && !(S v) then d * (numArcs es u v : ℚ) else 0) := by
  unfold cutFlow
  rw [addFlowOnArcs_length]
  have hcg : ∀ x ∈ List.range es.length,
      (if S x then
        ((((addFlowOnArcs es u v d).getD x []).filter fun e => !(S e.dst)).map
          fun e => e.flow).sum
      else 0) =
      (if S x then
        (((es.getD x []).filter fun e => !(S e.dst)).map fun e => e.flow).sum
      else 0) +
      (if x = u then (if S u && !(S v) then d * (numArcs es u v : ℚ) else 0)
       else 0) := by
    intro x _
    by_cases hx : x = u
    · subst hx
      rw [if_pos rfl, addFlowOnArcs_getD, if_pos rfl,
        filter_dst_map_update _ _ _ (fun n => !(S n))]
      by_cases hS : S x
      · rw [if_pos hS, if_pos hS]
        have hsplit : ((((es.getD x []).filter fun e => !(S e.dst)).map fun e =>
            if e.dst = v then { e with flow := e.flow + d } else e).map
              fun e => e.flow).sum =
            (((es.getD x []).filter fun e => !(S e.dst)).map fun e =>
              e.flow + (if e.dst = v then d else 0)).sum := by
          rw [List.map_map]
          apply congrArg List.sum
          apply List.map_congr_left
          intro e _
          by_cases hd : e.dst = v
          · simp [hd]
          · simp [hd]
        rw [hsplit, sum_map_add_split]
        congr 1
        have hite : (((es.getD x []).filter fun e => !(S e.dst)).map fun e =>
            if e.dst = v then d else 0).sum =
            d * ((((es.getD x []).filter fun e => !(S e.dst)).filter
              fun e => e.dst = v).length : ℚ) := by
          induction (es.getD x []).filter fun e => !(S e.dst) with
          | nil => simp
          | cons e rest ih =>
            by_cases hd : e.dst = v
            · rw [List.map_cons, List.sum_cons, ih, if_pos hd,
                List.filter_cons_of_pos (by simp [hd]), List.length_cons]
              push_cast
              ring
            · rw [List.map_cons, List.sum_cons, ih, if_neg hd,
                List.filter_cons_of_neg (by simp [hd])]
              ring
        rw [hite, filter_not_S_dst]
        by_cases hv : S v
        · rw [if_pos hv]
          have : (S x && !(S v)) = false := by
            rw [hv]
            simp
          rw [this, if_neg (by simp)]
          ring
        · rw [if_neg hv]
          have : (S x && !(S v)) = true := by
            rw [hS, Bool.eq_false_iff.mpr hv]
            rfl
          rw [this, if_pos rfl]
          rfl
      · rw [if_neg hS, if_neg hS]
        have : (S x && !(S v)) = false := by
          rw [Bool.eq_false_iff.mpr hS]
          rfl
        rw [this, if_neg (by simp)]
        ring
    · rw [addFlowOnArcs_getD, if_neg hx, if_neg hx]
      ring
  rw [List.map_congr_left hcg, sum_map_add_split, sum_range_pick]
  by_cases hu : u < es.length
  · rw [if_pos hu]
  · rw [if_neg hu]
    have : numArcs es u v = 0 := by
      unfold numArcs
      rw [getD_nil_of_le es u (by omega)]
      rfl
    rw [this]
    simp

theorem cutFlow_pairStep (es : List (List FlowEdge)) (u v : ℕ) (d : ℚ)
    (S : ℕ → Bool) :
    cutFlow (addFlowOnArcs (addFlowOnArcs es u v d) v u (-d)) S =
      cutFlow es S +
        (if S u && !(S v) then d * (numArcs es u v : ℚ) else 0) +
        (if S v && !(S u) then -d * (numArcs es v u : ℚ) else 0) := by
  rw [cutFlow_addFlow, cutFlow_addFlow, numArcs_addFlow]

theorem cutFlow_augment_chain (S : ℕ → Bool) (d : ℚ) (start : ℕ) :
    ∀ (pairs : List (ℕ × ℕ)) (es : List (List FlowEdge)) (cur : ℕ),
      chainFrom start pairs cur →
      (∀ pr ∈ pairs, numArcs es pr.1 pr.2 = 1) →
      (∀ pr ∈ pairs, S pr.1 = false → S pr.2 = true → numArcs es pr.2 pr.1 = 1) →
      cutFlow (augmentAlong es d pairs) S = cutFlow es S +
        d * ((if S start then (1 : ℚ) else 0) - (if S cur then (1 : ℚ) else 0)) := by
  intro pairs
  induction pairs with
  | nil =>
    intro es cur hchain _ _
    obtain rfl : cur = start := hchain
    show cutFlow es S = _
    ring
  | cons pr rest ih =>
    intro es cur hchain hA hB
    obtain ⟨h2, hc⟩ := hchain
    have hstep : augmentAlong es d (pr :: rest) =
        augmentAlong (addFlowOnArcs (addFlowOnArcs es pr.1 pr.2 d) pr.2 pr.1 (-d))
          d rest := by
      show (pr :: rest).foldl _ es = _
      rw [List.foldl_cons]
      rfl
    have hA2 : ∀ p2 ∈ rest,
        numArcs (addFlowOnArcs (addFlowOnArcs es pr.1 pr.2 d) pr.2 pr.1 (-d))
          p2.1 p2.2 = 1 := by
      intro p2 hp2
      rw [numArcs_addFlow, numArcs_addFlow]
      exact hA p2 (List.mem_cons_of_mem _ hp2)
    have hB2 : ∀ p2 ∈ rest, S p2.1 = false → S p2.2 = true →
        numArcs (addFlowOnArcs (addFlowOnArcs es pr.1 pr.2 d) pr.2 pr.1 (-d))
          p2.2 p2.1 = 1 := by
      intro p2 hp2 hs1 hs2
      rw [numArcs_addFlow, numArcs_addFlow]
      exact hB p2 (List.mem_cons_of_mem _ hp2) hs1 hs2
    rw [hstep, ih _ pr.1 hc hA2 hB2, cutFlow_pairStep]
    have hpair : (if S pr.1 && !(S pr.2) then d * (numArcs es pr.1 pr.2 : ℚ) else 0) +
        (if S pr.2 && !(S pr.1) then -d * (numArcs es pr.2 pr.1 : ℚ) else 0) =
        d * ((if S pr.1 then (1 : ℚ) else 0) - (if S pr.2 then (1 : ℚ) else 0)) := by
      by_cases hs1 : S pr.1
      · by_cases hs2 : S pr.2
        · rw [if_neg (by rw [hs1, hs2]; simp), if_neg (by rw [hs1, hs2]; simp),
            if_pos hs1, if_pos hs2]
          ring
        · have hs2f : S pr.2 = false := Bool.eq_false_iff.mpr hs2
          rw [if_pos (by rw [hs1, hs2f]; rfl), if_neg (by rw [hs1, hs2f]; simp),
            if_pos hs1, if_neg hs2,
            hA pr (List.mem_cons_self _ _)]
          push_cast
          ring
      · have hs1f : S pr.1 = false := Bool.eq_false_iff.mpr hs1
        by_cases hs2 : S pr.2
        · rw [if_neg (by rw [hs1f, hs2]; simp), if_pos (by rw [hs1f, hs2]; rfl),
            if_neg hs1, if_pos hs2,
            hB pr (List.mem_cons_self _ _) hs1f hs2]
          push_cast
          ring
        · have hs2f : S pr.2 = false := Bool.eq_false_iff.mpr hs2
          rw [if_neg (by rw [hs1f, hs2f]; simp), if_neg (by rw [hs1f, hs2f]; simp),
            if_neg hs1, if_neg hs2]
          ring
    rw [← h2]
    linear_combination hpair

theorem filter_dst_length_of_mapEq :
    ∀ (l l₀ : List FlowEdge),
      (l.map fun e => (e.fro, e.dst, e.cap)) =
        (l₀.map fun e => (e.fro, e.dst, e.cap)) →
      ∀ y, (l.filter fun e => e.dst = y).length =
        (l₀.filter fun e => e.dst = y).length := by
  intro l
  induction l with
  | nil =>
    intro l₀ h y
    cases l₀ with
    | nil => rfl
    | cons e₀ rest₀ => exact absurd h (by simp)
  | cons e rest ih =>
    intro l₀ h y
    cases l₀ with
    | nil => exact absurd h (by simp)
    | cons e₀ rest₀ =>
      simp only [List.map_cons, List.cons.injEq, Prod.mk.injEq] at h
      obtain ⟨⟨_, hdst, _⟩, htl⟩ := h
      by_cases hd : e.dst = y
      · rw [List.filter_cons_of_pos (by simp [hd]),
          List.filter_cons_of_pos (by simp [hdst ▸ hd]),
          List.length_cons, List.length_cons, ih rest₀ htl y]
      · rw [List.filter_cons_of_neg (by simp [hd]),
          List.filter_cons_of_neg (by simp [hdst ▸ hd]), ih rest₀ htl y]

theorem numArcs_shape (es es₀ : List (List FlowEdge))
    (h : ∀ x, ((es.getD x []).map fun e => (e.fro, e.dst, e.cap)) =
      ((es₀.getD x []).map fun e => (e.fro, e.dst, e.cap)))
    (x y : ℕ) : numArcs es x y = numArcs es₀ x y :=
  filter_dst_length_of_mapEq _ _ (h x) y

/-- Structural facts about the flow graph built at lines 189–201, shared
by every iteration of the augmenting loop: every head is a face or the
sink, parallel edges do not occur, face-to-face adjacency is symmetric,
the source's arcs point exactly at the role-1 nodes, and the sink has no
outgoing arcs. -/
structure GraphOK (nf : ℕ) (ft : ℕ → ℕ) (es₀ : List (List FlowEdge)) : Prop where
  len : es₀.length = nf + 2
  heads : ∀ x, ∀ e ∈ es₀.getD x [], e.dst < nf ∨ e.dst = nf + 1
  nA_le_one : ∀ x y, numArcs es₀ x y ≤ 1
  nA_sym : ∀ x y, x < nf → y < nf → numArcs es₀ x y = numArcs es₀ y x
  startAll : ∀ j, ft j = 1 → ∃ e ∈ es₀.getD nf [], e.dst = j ∧ e.cap = none
  targetNil : es₀.getD (nf + 1) [] = []
  ft_start : ft nf = 4
  ft_target : ft (nf + 1) = 4
  ft_one_lt : ∀ j, ft j = 1 → j < nf

/-- The loop invariant of `compute_flow`: the arc structure is that of
the built graph, flows respect capacities, arcs whose head has role 0
carry no flow, and every admissible cut carries exactly `sum_flow` of
flow. -/
structure FlowInv (nf : ℕ) (ft : ℕ → ℕ) (es₀ es : List (List FlowEdge))
    (sumF : ℚ) : Prop where
  len : es.length = es₀.length
  shape : ∀ x, ((es.getD x []).map fun e => (e.fro, e.dst, e.cap)) =
    ((es₀.getD x []).map fun e => (e.fro, e.dst, e.cap))
  capBound : ∀ x, ∀ e ∈ es.getD x [], ∀ c, e.cap = some c → e.flow ≤ c
  zhead : ∀ x, ∀ e ∈ es.getD x [], ft e.dst = 0 → e.flow = 0
  cut : ∀ S : ℕ → Bool, goodCut nf ft S → cutFlow es S = sumF

theorem count_le_one_of_nodup (l : List (ℕ × ℕ)) (h : l.Nodup) (pr : ℕ × ℕ) :
    l.count pr ≤ 1 := by
  induction l with
  | nil => simp
  | cons a rest ih =>
    obtain ⟨hna, hnd⟩ := List.nodup_cons.mp h
    rw [List.count_cons]
    by_cases he : pr = a
    · subst he
      rw [List.count_eq_zero.mpr hna]
      simp
    · have : rest.count pr ≤ 1 := ih hnd
      have hb : (a == pr) = false := by
        rw [beq_eq_false_iff_ne]
        exact Ne.symm he
      rw [hb]
      simp only [if_neg (by simp : ¬ false = true)]
      omega

theorem flowInv_step (nf : ℕ) (ft : ℕ → ℕ) (es₀ es : List (List FlowEdge))
    (sumF : ℚ) (G : GraphOK nf ft es₀) (I : FlowInv nf ft es₀ es sumF)
    (bfuel pfuel : ℕ) (st : BfsState)
    (hbfs : runBFS ft es nf (nf + 1) bfuel = some st)
    (hne : st.a (nf + 1) ≠ 0)
    (d : ℚ) (hd : st.a (nf + 1) = (d : WithTop ℚ))
    (pairs : List (ℕ × ℕ))
    (hpp : pathPairs st.p nf pfuel (nf + 1) = some pairs) :
    FlowInv nf ft es₀ (augmentAlong es d pairs) (sumF + d) := by
  obtain ⟨hInv, _⟩ := runBFS_inv ft es nf (nf + 1) bfuel st hbfs
  obtain ⟨hfacts, hndsnd⟩ :=
    pathPairs_facts ft es nf st hInv pfuel (nf + 1) pairs hne hpp
  have hchain := pathPairs_chain st.p nf pfuel (nf + 1) pairs hpp
  have hdpos : 0 < d := by
    have h := hInv.a_pos (nf + 1) hne
    rw [hd] at h
    exact_mod_cast h
  have hcount_le : ∀ pr, pairs.count pr ≤ 1 :=
    count_le_one_of_nodup pairs (List.Nodup.of_map Prod.snd hndsnd)
  have hnoswap : ∀ x y : ℕ, (x, y) ∈ pairs → (y, x) ∉ pairs := by
    intro x y hxy hyx
    have h1 := (hfacts (x, y) hxy).2.2.2.1
    have h2 := (hfacts (y, x) hyx).2.2.2.1
    dsimp only at h1 h2
    omega
  have hft_ends : ∀ pr ∈ pairs, ft pr.1 ≠ 0 ∧ ft pr.2 ≠ 0 := by
    intro pr hpr
    obtain ⟨h1, h2, h3, _⟩ := hfacts pr hpr
    constructor
    · rcases List.mem_cons.mp (hInv.reached_cover pr.1 h1) with h | h
      · rw [h, G.ft_start]
        omega
      · exact hInv.hist_ft _ h
    · rcases List.mem_cons.mp (hInv.reached_cover pr.2 h2) with h | h
      · exact absurd h h3
      · exact hInv.hist_ft _ h
  have hnA1 : ∀ pr ∈ pairs, numArcs es pr.1 pr.2 = 1 := by
    intro pr hpr
    obtain ⟨_, _, _, _, _, e, he, hdst, _⟩ := hfacts pr hpr
    have hmem : e ∈ (es.getD pr.1 []).filter fun e2 => e2.dst = pr.2 :=
      List.mem_filter.mpr ⟨he, by simp [hdst]⟩
    have hge : 0 < numArcs es pr.1 pr.2 :=
      List.length_pos.mpr (List.ne_nil_of_mem hmem)
    have hle : numArcs es pr.1 pr.2 ≤ 1 := by
      rw [numArcs_shape es es₀ I.shape]
      exact G.nA_le_one _ _
    omega
  have hlt_len : ∀ pr ∈ pairs, pr.1 < es.length ∧ pr.2 < es.length := by
    intro pr hpr
    obtain ⟨_, _, _, _, _, e, he, hdst, _⟩ := hfacts pr hpr
    have h1 : pr.1 < es.length := by
      by_contra hcon
      rw [getD_nil_of_le es pr.1 (by omega)] at he
      exact absurd he (List.not_mem_nil _)
    refine ⟨h1, ?_⟩
    have hmem : (e.fro, e.dst, e.cap) ∈
        (es₀.getD pr.1 []).map fun e2 => (e2.fro, e2.dst, e2.cap) := by
      rw [← I.shape]
      exact List.mem_map_of_mem _ he
    obtain ⟨e₀, he₀, htr⟩ := List.mem_map.mp hmem
    have hdst0 : e₀.dst = e.dst := by
      simp only [Prod.mk.injEq] at htr
      exact htr.2.1
    rw [I.len, G.len]
    rcases G.heads pr.1 e₀ he₀ with h | h
    · omega
    · omega
  have hnotarget : ∀ pr ∈ pairs, pr.1 ≠ nf + 1 := by
    intro pr hpr hcon
    obtain ⟨_, _, _, _, _, e, he, _, _⟩ := hfacts pr hpr
    rw [hcon] at he
    have : (es.getD (nf + 1) []).map (fun e2 => (e2.fro, e2.dst, e2.cap)) = [] := by
      rw [I.shape, G.targetNil]
      rfl
    rw [List.map_eq_nil] at this
    rw [this] at he
    exact absurd he (List.not_mem_nil _)
  refine ⟨?_, ?_, ?_, ?_, ?_⟩
  · rw [augmentAlong_length, I.len]
  · intro x
    exact (augment_shape es d pairs x).trans (I.shape x)
  · intro x e' he' c hc
    rw [augmentAlong_getD] at he'
    obtain ⟨e, he, hee⟩ := List.mem_map.mp he'
    rw [← hee] at hc ⊢
    dsimp only at hc ⊢
    have hflow : e.flow ≤ c := I.capBound x e he c hc
    by_cases h1 : ((x : ℕ), e.dst) ∈ pairs
    · have hc1 : pairs.count ((x : ℕ), e.dst) = 1 :=
        le_antisymm (hcount_le _) (List.count_pos_iff.mpr h1)
      have hc2 : pairs.count ((e.dst : ℕ), x) = 0 :=
        List.count_eq_zero.mpr (hnoswap x e.dst h1)
      obtain ⟨_, _, _, _, _, ep, hep, hepdst, hres⟩ := hfacts ((x : ℕ), e.dst) h1
      dsimp only at hep hepdst hres
      have hnAle : ((es.getD x []).filter fun e2 => e2.dst = e.dst).length ≤ 1 := by
        have h := G.nA_le_one x e.dst
        rw [← numArcs_shape es es₀ I.shape] at h
        exact h
      have heq : e = ep :=
        mem_of_length_le_one hnAle
          (List.mem_filter.mpr ⟨he, by simp⟩)
          (List.mem_filter.mpr ⟨hep, by simp [hepdst]⟩)
      rw [hd, ← heq, hc] at hres
      have hres2 : d ≤ c - e.flow := by
        simp only [residual] at hres
        exact_mod_cast hres
      rw [hc1, hc2]
      push_cast
      linarith
    · have hc1 : pairs.count ((x : ℕ), e.dst) = 0 := List.count_eq_zero.mpr h1
      have hc2 : (0 : ℚ) ≤ (pairs.count ((e.dst : ℕ), x) : ℚ) := by positivity
      rw [hc1]
      push_cast
      nlinarith
  · intro x e' he' hft0
    rw [augmentAlong_getD] at he'
    obtain ⟨e, he, hee⟩ := List.mem_map.mp he'
    rw [← hee] at hft0 ⊢
    dsimp only at hft0 ⊢
    have hflow : e.flow = 0 := I.zhead x e he hft0
    have hc1 : pairs.count ((x : ℕ), e.dst) = 0 := by
      rw [List.count_eq_zero]
      intro hmem
      exact absurd hft0 (hft_ends _ hmem).2
    have hc2 : pairs.count ((e.dst : ℕ), x) = 0 := by
      rw [List.count_eq_zero]
      intro hmem
      exact absurd hft0 (hft_ends _ hmem).1
    rw [hflow, hc1, hc2]
    ring
  · intro S hgood
    have hBcond : ∀ pr ∈ pairs, S pr.1 = false → S pr.2 = true →
        numArcs es pr.2 pr.1 = 1 := by
      intro pr hpr hs1 hs2
      have hp1nf : pr.1 ≠ nf := by
        intro hcon
        rw [hcon, hgood.1] at hs1
        cases hs1
      have hp2t : pr.2 ≠ nf + 1 := by
        intro hcon
        rw [hcon, hgood.2.1] at hs2
        cases hs2
      have hp2s : pr.2 ≠ nf := (hfacts pr hpr).2.2.1
      obtain ⟨hl1, hl2⟩ := hlt_len pr hpr
      rw [I.len, G.len] at hl1 hl2
      have hp1f : pr.1 < nf := by
        have := hnotarget pr hpr
        omega
      have hp2f : pr.2 < nf := by omega
      rw [numArcs_shape es es₀ I.shape, G.nA_sym pr.2 pr.1 hp2f hp1f,
        ← numArcs_shape es es₀ I.shape]
      exact hnA1 pr hpr
    rw [cutFlow_augment_chain S d nf pairs es (nf + 1) hchain hnA1 hBcond,
      I.cut S hgood, if_pos hgood.1, if_neg (by rw [hgood.2.1]; simp)]
    ring

theorem computeFlowLoop_mincut_aux (nf : ℕ) (ft : ℕ → ℕ)
    (es₀ : List (List FlowEdge)) (G : GraphOK nf ft es₀) :
    ∀ (fuel : ℕ) (es : List (List FlowEdge)) (sumF : ℚ)
      (r : (ℕ → ℕ) × ℚ × List ℕ × List (List FlowEdge)),
      FlowInv nf ft es₀ es sumF →
      computeFlowLoop nf ft fuel es sumF = some r →
      ∃ st : BfsState,
        BfsInv ft r.2.2.2 nf st ∧ st.q = [] ∧ st.a (nf + 1) = 0 ∧
        r.2.2.1 = st.hist ∧ FlowInv nf ft es₀ r.2.2.2 r.2.1 := by
  intro fuel
  induction fuel with
  | zero =>
    intro es sumF r _ h
    exact absurd h (by simp [computeFlowLoop])
  | succ m ih =>
    intro es sumF r I h
    rw [computeFlowLoop] at h
    rcases hbfs : runBFS ft es nf (nf + 1) (es.length + 2) with _ | st
    · rw [hbfs] at h
      exact absurd h (by simp)
    · rw [hbfs] at h
      simp only at h
      by_cases hzero : st.a (nf + 1) = 0
      · rw [dif_pos hzero] at h
        obtain ⟨hInv, hq⟩ := runBFS_inv ft es nf (nf + 1) (es.length + 2) st hbfs
        obtain rfl := Option.some_inj.mp h
        exact ⟨st, hInv, hq hzero, hzero, rfl, I⟩
      · rw [dif_neg hzero] at h
        rcases hval : st.a (nf + 1) with _ | d
        · rw [hval] at h
          exact absurd h (by simp)
        · rw [hval] at h
          rcases hpp : pathPairs st.p nf (es.length + 2) (nf + 1) with _ | pairs
          · rw [hpp] at h
            exact absurd h (by simp)
          · rw [hpp] at h
            simp only at h
            exact ih _ _ r
              (flowInv_step nf ft es₀ es sumF G I (es.length + 2)
                (es.length + 2) st hbfs hzero d hval pairs hpp) h

theorem buildEdges_length (nf : ℕ) (nbrs : ℕ → List (ℕ × ℚ)) (avg : ℚ)
    (ft : ℕ → ℕ) : (buildEdges nf nbrs avg ft).length = nf + 2 := by
  unfold buildEdges
  simp

theorem buildEdges_getD_face (nf : ℕ) (nbrs : ℕ → List (ℕ × ℚ)) (avg : ℚ)
    (ft : ℕ → ℕ) (i : ℕ) (hi : i < nf) :
    (buildEdges nf nbrs avg ft).getD i [] =
      ((nbrs i).map fun p => FlowEdge.mk i p.1 (some (1 / (1 + p.2 / avg))) 0) ++
        (if ft i = 2 then [FlowEdge.mk i (nf + 1) none 0] else []) := by
  unfold buildEdges
  rw [List.getD_eq_getElem?_getD,
    List.getElem?_append_left (by
      simp only [List.length_append, List.length_map, List.length_range,
        List.length_cons, List.length_nil]
      omega),
    List.getElem?_append_left (by simp [hi]),
    List.getElem?_map, List.getElem?_range hi]
  rfl

theorem buildEdges_getD_start (nf : ℕ) (nbrs : ℕ → List (ℕ × ℚ)) (avg : ℚ)
    (ft : ℕ → ℕ) :
    (buildEdges nf nbrs avg ft).getD nf [] =
      ((List.range (nf + 2)).filter fun i => ft i = 1).map fun i =>
        FlowEdge.mk nf i none 0 := by
  unfold buildEdges
  rw [List.getD_eq_getElem?_getD,
    List.getElem?_append_left (by
      simp only [List.length_append, List.length_map, List.length_range,
        List.length_cons, List.length_nil]
      omega),
    List.getElem?_append_right (by simp)]
  simp

theorem buildEdges_getD_target (nf : ℕ) (nbrs : ℕ → List (ℕ × ℚ)) (avg : ℚ)
    (ft : ℕ → ℕ) :
    (buildEdges nf nbrs avg ft).getD (nf + 1) [] = [] := by
  unfold buildEdges
  rw [List.getD_eq_getElem?_getD,
    List.getElem?_append_right (by
      simp only [List.length_append, List.length_map, List.length_range,
        List.length_cons, List.length_nil]
      omega)]
  simp

theorem buildEdges_getD_big (nf : ℕ) (nbrs : ℕ → List (ℕ × ℚ)) (avg : ℚ)
    (ft : ℕ → ℕ) (x : ℕ) (hx : nf + 2 ≤ x) :
    (buildEdges nf nbrs avg ft).getD x [] = [] :=
  getD_nil_of_le _ x (by rw [buildEdges_length]; omega)

theorem filter_map_dst_length (l : List (ℕ × ℚ)) (i : ℕ) (avg : ℚ) (y : ℕ) :
    (((l.map fun p => FlowEdge.mk i p.1 (some (1 / (1 + p.2 / avg))) 0).filter
      fun e => e.dst = y).length) = (l.map Prod.fst).count y := by
  induction l with
  | nil => rfl
  | cons p rest ih =>
    rw [List.map_cons, List.map_cons, List.count_cons]
    by_cases hd : p.1 = y
    · rw [List.filter_cons_of_pos (by simp [hd]), List.length_cons, ih,
        if_pos (by simp [hd])]
    · rw [List.filter_cons_of_neg (by simp [hd]), ih,
        if_neg (by simp [hd])]
      omega

theorem numArcs_buildEdges_face (nf : ℕ) (nbrs : ℕ → List (ℕ × ℚ)) (avg : ℚ)
    (ft : ℕ → ℕ) (i : ℕ) (hi : i < nf) (y : ℕ) :
    numArcs (buildEdges nf nbrs avg ft) i y =
      ((nbrs i).map Prod.fst).count y +
        (if ft i = 2 ∧ y = nf + 1 then 1 else 0) := by
  unfold numArcs
  rw [buildEdges_getD_face nf nbrs avg ft i hi, List.filter_append,
    List.length_append, filter_map_dst_length]
  congr 1
  by_cases h2 : ft i = 2
  · rw [if_pos h2]
    by_cases hy : y = nf + 1
    · rw [List.filter_cons_of_pos (by simp [hy]), if_pos ⟨h2, hy⟩]
      rfl
    · rw [List.filter_cons_of_neg (by simp; omega),
        if_neg (fun hc => hy hc.2)]
      rfl
  · rw [if_neg h2, if_neg (fun hc => h2 hc.1)]
    rfl

theorem numArcs_buildEdges_start (nf : ℕ) (nbrs : ℕ → List (ℕ × ℚ)) (avg : ℚ)
    (ft : ℕ → ℕ) (y : ℕ) :
    numArcs (buildEdges nf nbrs avg ft) nf y =
      (((List.range (nf + 2)).filter fun i => ft i = 1).count y) := by
  unfold numArcs
  rw [buildEdges_getD_start]
  induction (List.range (nf + 2)).filter fun i => ft i = 1 with
  | nil => rfl
  | cons j rest ih =>
    rw [List.map_cons, List.count_cons]
    by_cases hd : j = y
    · rw [List.filter_cons_of_pos (by simp [hd]), List.length_cons, ih,
        if_pos (by simp [hd])]
    · rw [List.filter_cons_of_neg (by simp [hd]), ih, if_neg (by simp [hd])]
      omega

theorem buildEdges_ok (nf : ℕ) (nbrs : ℕ → List (ℕ × ℚ)) (avg : ℚ)
    (ft : ℕ → ℕ)
    (H1 : ∀ i, ∀ p ∈ nbrs i, p.1 < nf)
    (H2 : ∀ i, ((nbrs i).map Prod.fst).Nodup)
    (H3 : ∀ i j, ((nbrs i).map Prod.fst).count j = ((nbrs j).map Prod.fst).count i)
    (Hs : ft nf = 4) (Ht : ft (nf + 1) = 4)
    (Hlt : ∀ j, ft j = 1 → j < nf) :
    GraphOK nf ft (buildEdges nf nbrs avg ft) := by
  have hcount0 : ∀ i y, nf ≤ y → ((nbrs i).map Prod.fst).count y = 0 := by
    intro i y hy
    rw [List.count_eq_zero]
    intro hmem
    obtain ⟨p, hp, hfst⟩ := List.mem_map.mp hmem
    have := H1 i p hp
    omega
  refine ⟨buildEdges_length nf nbrs avg ft, ?_, ?_, ?_, ?_,
    buildEdges_getD_target nf nbrs avg ft, Hs, Ht, Hlt⟩
  · intro x e he
    rcases lt_or_ge x nf with hx | hx
    · rw [buildEdges_getD_face nf nbrs avg ft x hx] at he
      rcases List.mem_append.mp he with he | he
      · obtain ⟨p, hp, hpe⟩ := List.mem_map.mp he
        left
        rw [← hpe]
        exact H1 x p hp
      · by_cases h2 : ft x = 2
        · rw [if_pos h2] at he
          obtain rfl := List.mem_singleton.mp he
          right
          rfl
        · rw [if_neg h2] at he
          cases he
    · rcases eq_or_lt_of_le hx with hx2 | hx2
      · rw [← hx2, buildEdges_getD_start] at he
        obtain ⟨j, hj, hje⟩ := List.mem_map.mp he
        have hj1 : ft j = 1 := of_decide_eq_true (List.mem_filter.mp hj).2
        left
        rw [← hje]
        exact Hlt j hj1
      · rcases Nat.lt_or_ge x (nf + 2) with hx3 | hx3
        · have : x = nf + 1 := by omega
          rw [this, buildEdges_getD_target] at he
          cases he
        · rw [buildEdges_getD_big nf nbrs avg ft x hx3] at he
          cases he
  · intro x y
    rcases lt_or_ge x nf with hx | hx
    · rw [numArcs_buildEdges_face nf nbrs avg ft x hx]
      have hc := List.nodup_iff_count_le_one.mp (H2 x) y
      by_cases hy : y = nf + 1
      · rw [hcount0 x y (by omega)]
        split <;> omega
      · rw [if_neg (fun hc2 => hy hc2.2)]
        omega
    · rcases eq_or_lt_of_le hx with hx2 | hx2
      · rw [← hx2, numArcs_buildEdges_start]
        exact List.nodup_iff_count_le_one.mp
          ((List.nodup_range (nf + 2)).filter _) y
      · have hnil : (buildEdges nf nbrs avg ft).getD x [] = [] := by
          rcases Nat.lt_or_ge x (nf + 2) with hx3 | hx3
          · have : x = nf + 1 := by omega
            rw [this]
            exact buildEdges_getD_target nf nbrs avg ft
          · exact buildEdges_getD_big nf nbrs avg ft x hx3
        unfold numArcs
        rw [hnil]
        exact Nat.zero_le 1
  · intro x y hx hy
    rw [numArcs_buildEdges_face nf nbrs avg ft x hx,
      numArcs_buildEdges_face nf nbrs avg ft y hy,
      if_neg (fun hc => by omega : ¬ (ft x = 2 ∧ y = nf + 1)),
      if_neg (fun hc => by omega : ¬ (ft y = 2 ∧ x = nf + 1)), H3 x y]
  · intro j hj
    rw [buildEdges_getD_start]
    have hjm : j ∈ (List.range (nf + 2)).filter fun i => ft i = 1 :=
      List.mem_filter.mpr ⟨List.mem_range.mpr (by have := Hlt j hj; omega),
        by simp [hj]⟩
    exact ⟨FlowEdge.mk nf j none 0, List.mem_map_of_mem _ hjm, rfl, rfl⟩

theorem flowInv_init (nf : ℕ) (nbrs : ℕ → List (ℕ × ℚ)) (avg : ℚ)
    (ft : ℕ → ℕ) (Havg : 0 < avg) (Hw : ∀ i, ∀ p ∈ nbrs i, 0 ≤ p.2) :
    FlowInv nf ft (buildEdges nf nbrs avg ft) (buildEdges nf nbrs avg ft) 0 := by
  have hflow0 : ∀ x, ∀ e ∈ (buildEdges nf nbrs avg ft).getD x [], e.flow = 0 := by
    intro x e he
    rcases lt_or_ge x nf with hx | hx
    · rw [buildEdges_getD_face nf nbrs avg ft x hx] at he
      rcases List.mem_append.mp he with he | he
      · obtain ⟨p, _, hpe⟩ := List.mem_map.mp he
        rw [← hpe]
      · by_cases h2 : ft x = 2
        · rw [if_pos h2] at he
          obtain rfl := List.mem_singleton.mp he
          rfl
        · rw [if_neg h2] at he
          cases he
    · rcases eq_or_lt_of_le hx with hx2 | hx2
      · rw [← hx2, buildEdges_getD_start] at he
        obtain ⟨j, _, hje⟩ := List.mem_map.mp he
        rw [← hje]
      · rcases Nat.lt_or_ge x (nf + 2) with hx3 | hx3
        · have hxeq : x = nf + 1 := by omega
          rw [hxeq, buildEdges_getD_target] at he
          cases he
        · rw [buildEdges_getD_big nf nbrs avg ft x hx3] at he
          cases he
  refine ⟨rfl, fun _ => rfl, ?_, ?_, ?_⟩
  · intro x e he c hc
    rw [hflow0 x e he]
    rcases lt_or_ge x nf with hx | hx
    · rw [buildEdges_getD_face nf nbrs avg ft x hx] at he
      rcases List.mem_append.mp he with he | he
      · obtain ⟨p, hp, hpe⟩ := List.mem_map.mp he
        have hcap : e.cap = some (1 / (1 + p.2 / avg)) := by
          rw [← hpe]
        rw [hcap] at hc
        obtain rfl := Option.some_inj.mp hc
        have hw := Hw x p hp
        positivity
      · by_cases h2 : ft x = 2
        · rw [if_pos h2] at he
          obtain rfl := List.mem_singleton.mp he
          cases hc
        · rw [if_neg h2] at he
          cases he
    · rcases eq_or_lt_of_le hx with hx2 | hx2
      · rw [← hx2, buildEdges_getD_start] at he
        obtain ⟨j, _, hje⟩ := List.mem_map.mp he
        rw [← hje] at hc
        cases hc
      · rcases Nat.lt_or_ge x (nf + 2) with hx3 | hx3
        · have hxeq : x = nf + 1 := by omega
          rw [hxeq, buildEdges_getD_target] at he
          cases he
        · rw [buildEdges_getD_big nf nbrs avg ft x hx3] at he
          cases he
  · intro x e he _
    exact hflow0 x e he
  · intro S _
    unfold cutFlow
    apply List.sum_eq_zero
    intro q hq
    obtain ⟨x, _, hxq⟩ := List.mem_map.mp hq
    rw [← hxq]
    by_cases hS : S x
    · rw [if_pos hS]
      apply List.sum_eq_zero
      intro w hw
      obtain ⟨e, hef, hew⟩ := List.mem_map.mp hw
      rw [← hew]
      exact hflow0 x e (List.mem_of_mem_filter hef)
    · rw [if_neg hS]

theorem satCutList (l : List FlowEdge) (S : ℕ → Bool) (ft : ℕ → ℕ)
    (hflow0 : ∀ e ∈ l, ft e.dst = 0 → e.flow = 0)
    (hsat : ∀ e ∈ l, S e.dst = false → ft e.dst ≠ 0 → e.cap = some e.flow) :
    ((l.filter fun e => !(S e.dst) && decide (ft e.dst ≠ 0)).map
      fun e => capW e.cap).sum =
    (((((l.filter fun e => !(S e.dst)).map fun e => e.flow).sum : ℚ)) : WithTop ℚ) := by
  induction l with
  | nil => rfl
  | cons e rest ih =>
    have ih2 := ih (fun e2 he2 => hflow0 e2 (List.mem_cons_of_mem _ he2))
      (fun e2 he2 => hsat e2 (List.mem_cons_of_mem _ he2))
    by_cases hS : S e.dst
    · rw [List.filter_cons_of_neg (by simp [hS]),
        List.filter_cons_of_neg (by simp [hS]), ih2]
    · have hSf : S e.dst = false := Bool.eq_false_iff.mpr hS
      by_cases hft : ft e.dst = 0
      · rw [List.filter_cons_of_neg (by simp [hft]),
          List.filter_cons_of_pos (by simp [hSf]),
          List.map_cons, List.sum_cons, hflow0 e (List.mem_cons_self _ _) hft,
          WithTop.coe_add, ih2]
        simp
      · rw [List.filter_cons_of_pos (by simp [hSf, hft]),
          List.filter_cons_of_pos (by simp [hSf]),
          List.map_cons, List.sum_cons, List.map_cons, List.sum_cons,
          WithTop.coe_add, ih2,
          hsat e (List.mem_cons_self _ _) hSf hft]
        rfl

/-- C4 (amended): when `compute_flow` terminates, the capacity of the
cut from the final BFS reachable set (source plus `q_history`, the nodes
made role 1) to its complement — restricted to edges whose head has a
nonzero role — equals the accumulated `sum_flow`.  Hypotheses: every
neighbor is a face, adjacency lists are duplicate-free and symmetric,
and the angle distances are nonnegative with a positive average.  The
cut over ALL edges (the claim as stated) is refuted separately: arcs
into role-0 faces carry capacity but never flow. -/
theorem computeFlow_mincut (nf : ℕ) (nbrs : ℕ → List (ℕ × ℚ)) (avg : ℚ)
    (ft0 : ℕ → ℕ) (fuel : ℕ)
    (r : (ℕ → ℕ) × ℚ × List ℕ × List (List FlowEdge))
    (H1 : ∀ i, ∀ p ∈ nbrs i, p.1 < nf)
    (H2 : ∀ i, ((nbrs i).map Prod.fst).Nodup)
    (H3 : ∀ i j, ((nbrs i).map Prod.fst).count j = ((nbrs j).map Prod.fst).count i)
    (Havg : 0 < avg) (Hw : ∀ i, ∀ p ∈ nbrs i, 0 ≤ p.2)
    (h : computeFlow nf nbrs avg ft0 fuel = some r) :
    cutCapacityActive r.2.2.2 (fun i => if i < nf then ft0 i else 4)
      (reachSet nf r.2.2.1) = ((r.2.1 : ℚ) : WithTop ℚ) := by
  simp only [computeFlow] at h
  have Hs : (fun i => if i < nf then ft0 i else 4) nf = 4 := by simp
  have Ht : (fun i => if i < nf then ft0 i else 4) (nf + 1) = 4 := by simp
  have Hlt : ∀ j, (fun i => if i < nf then ft0 i else 4) j = 1 → j < nf := by
    intro j hj
    dsimp only at hj
    by_contra hc
    rw [if_neg hc] at hj
    omega
  have G := buildEdges_ok nf nbrs avg (fun i => if i < nf then ft0 i else 4)
    H1 H2 H3 Hs Ht Hlt
  have I0 := flowInv_init nf nbrs avg (fun i => if i < nf then ft0 i else 4)
    Havg Hw
  obtain ⟨st, hInv, hq, hzero, hhist, I⟩ :=
    computeFlowLoop_mincut_aux nf (fun i => if i < nf then ft0 i else 4)
      (buildEdges nf nbrs avg (fun i => if i < nf then ft0 i else 4)) G fuel
      (buildEdges nf nbrs avg (fun i => if i < nf then ft0 i else 4)) 0 r I0 h
  have hSmem : ∀ x, reachSet nf st.hist x = true ↔ (x = nf ∨ x ∈ st.hist) := by
    intro x
    unfold reachSet
    rw [decide_eq_true_eq]
  have hgood : goodCut nf (fun i => if i < nf then ft0 i else 4)
      (reachSet nf st.hist) := by
    refine ⟨(hSmem nf).mpr (Or.inl rfl), ?_, ?_⟩
    · have hnm : (nf + 1) ∉ st.hist := fun hm => (hInv.hist_reached _ hm) hzero
      unfold reachSet
      apply decide_eq_false
      rintro (hc | hc)
      · omega
      · exact hnm hc
    · intro j hj
      have hjlt : j < nf := Hlt j hj
      obtain ⟨e₀, he₀, hdst₀, hcap₀⟩ := G.startAll j hj
      have hmem : (e₀.fro, e₀.dst, e₀.cap) ∈
          (r.2.2.2.getD nf []).map fun e2 => (e2.fro, e2.dst, e2.cap) := by
        rw [I.shape]
        exact List.mem_map_of_mem _ he₀
      obtain ⟨e, he, htr⟩ := List.mem_map.mp hmem
      simp only [Prod.mk.injEq] at htr
      have hedst : e.dst = j := by rw [htr.2.1, hdst₀]
      have hecap : e.cap = none := by rw [htr.2.2, hcap₀]
      have hproc := hInv.processed nf (by rw [hInv.a_start]; exact top_ne_zeroW)
        (by rw [hq]; exact List.not_mem_nil _) e he
        (by
          rw [hedst]
          have hj2 : (if j < nf then ft0 j else 4) = 1 := hj
          show ¬ (if j < nf then ft0 j else 4) = 0
          rw [hj2]
          omega)
      rcases hproc with hreach | hcap
      · rw [hedst] at hreach
        rcases List.mem_cons.mp (hInv.reached_cover j hreach) with hc | hc
        · omega
        · exact (hSmem j).mpr (Or.inr hc)
      · rw [hecap] at hcap
        cases hcap
  have hcut := I.cut (reachSet nf st.hist) hgood
  rw [hhist, ← hcut]
  unfold cutCapacityActive cutFlow
  rw [coe_sum_list, List.map_map]
  apply congrArg List.sum
  apply List.map_congr_left
  intro x hx
  simp only [Function.comp_apply]
  by_cases hS : reachSet nf st.hist x
  · rw [if_pos hS, if_pos hS]
    have hax : st.a x ≠ 0 := by
      rcases (hSmem x).mp hS with hc | hc
      · rw [hc, hInv.a_start]
        exact top_ne_zeroW
      · exact hInv.hist_reached x hc
    have hsat : ∀ e ∈ r.2.2.2.getD x [], reachSet nf st.hist e.dst = false →
        (fun i => if i < nf then ft0 i else 4) e.dst ≠ 0 → e.cap = some e.flow := by
      intro e he hSd hft
      have hproc := hInv.processed x hax (by rw [hq]; exact List.not_mem_nil _)
        e he hft
      rcases hproc with hreach | hcap
      · exfalso
        have : reachSet nf st.hist e.dst = true := by
          rcases List.mem_cons.mp (hInv.reached_cover e.dst hreach) with hc | hc
          · exact (hSmem e.dst).mpr (Or.inl hc)
          · exact (hSmem e.dst).mpr (Or.inr hc)
        rw [this] at hSd
        cases hSd
      · rcases hc : e.cap with _ | c
        · rw [hc] at hcap
          cases hcap
        · rw [hc] at hcap
          have h1 : c ≤ e.flow := capGtFlow_false_ge hcap
          have h2 : e.flow ≤ c := I.capBound x e he c hc
          rw [le_antisymm h2 h1]
    exact satCutList (r.2.2.2.getD x []) (reachSet nf st.hist)
      (fun i => if i < nf then ft0 i else 4)
      (fun e he hft => I.zhead x e he hft) hsat
  · rw [if_neg hS, if_neg hS]
    rfl

/-- A two-face mesh for the C4 counterexample: faces 0 and 1 are
adjacent with angle distance 0. -/
def exNbrsC4 : ℕ → List (ℕ × ℚ) :=
  fun i => if i = 0 then [(1, 0)] else if i = 1 then [(0, 0)] else []

/-- Roles for the C4 counterexample: face 0 has role 1 and face 1 has
role 0. -/
def exTypesC4 : ℕ → ℕ := fun i => if i = 0 then 1 else 0

/-- C4 (claim as stated; refuted): `compute_flow` terminates on a
two-face mesh where face 0 (role 1) is adjacent to role-0 face 1, with
`sum_flow = 0`; yet the arc `0 → 1` crosses the cut from the reachable
set with capacity 1, so the total capacity over ALL crossing edges is 1,
not the accumulated flow.  Only the cut restricted to edges whose head
has a nonzero role equals `sum_flow`. -/
theorem computeFlow_mincut_claim_false :
    ∃ r, computeFlow 2 exNbrsC4 1 exTypesC4 1 = some r ∧
      cutCapacityAll r.2.2.2 (reachSet 2 r.2.2.1) ≠ ((r.2.1 : ℚ) : WithTop ℚ) := by
  refine ⟨(finalTypes 2 (fun i => if i < 2 then exTypesC4 i else 4) [0], 0, [0],
    buildEdges 2 exNbrsC4 1 (fun i => if i < 2 then exTypesC4 i else 4)),
    rfl, ?_⟩
  have h1 : cutCapacityAll
      (buildEdges 2 exNbrsC4 1 (fun i => if i < 2 then exTypesC4 i else 4))
      (reachSet 2 [0]) = ((1 : ℚ) : WithTop ℚ) := by
    norm_num [cutCapacityAll, buildEdges, reachSet, exNbrsC4, exTypesC4, capW,
      List.range_succ]
  intro hc
  dsimp only at hc
  rw [h1] at hc
  have : (1 : ℚ) = 0 := WithTop.coe_inj.mp hc
  norm_num at this

/-- Witness for the amended C4 theorem: on the empty mesh (no faces,
no neighbors) `compute_flow` terminates at once with `sum_flow = 0` and
an empty history, and the active cut capacity is 0. -/
theorem computeFlow_mincut_witness :
    cutCapacityActive
      (buildEdges 0 (fun _ => ([] : List (ℕ × ℚ))) 1
        (fun i => if i < 0 then 0 else 4))
      (fun i => if i < 0 then 0 else 4) (reachSet 0 []) =
      ((0 : ℚ) : WithTop ℚ) := by
  have h := computeFlow_mincut 0 (fun _ => ([] : List (ℕ × ℚ))) 1 (fun _ => 0) 1
    (finalTypes 0 (fun i => if i < 0 then (fun _ => 0 : ℕ → ℕ) i else 4) [], 0,
      [], buildEdges 0 (fun _ => ([] : List (ℕ × ℚ)))
        1 (fun i => if i < 0 then (fun _ => 0 : ℕ → ℕ) i else 4))
    (fun i p hp => absurd hp (List.not_mem_nil p))
    (fun i => List.nodup_nil)
    (fun i j => rfl)
    one_pos
    (fun i p hp => absurd hp (List.not_mem_nil p))
    rfl
  exact h

end MeshSeg
